import Mathlib

/-!
# Range-minimum queries with a segment tree

A shallow embedding of `struct rmq_segment_tree` from
`RMQ-Segment-Tree-Dinamic.cpp`, and of the struct of the same name from
`RMQ-Segment-Tree-Static.cpp` (namespace `static_variant`).

Conventions of the embedding.

* The backing array `int_vector<>` is a `List Nat`; the engine holds a pointer
  to it, which is `Option (List Nat)` (`none` is `nullptr`).  A store made by the
  caller through the array is visible through the pointer, see `write`.
* A C++ `int` is an `Int` that must stay inside `[INT_MIN, INT_MAX]`.  Signed
  overflow, an access outside a vector and a negative element count are
  undefined behaviour (or an exception) in the source: every function that can
  meet one returns `Option`, and `none` stands for such a run.
* The recursive member functions take a fuel argument; the public entry points
  supply `n` units, which is shown to be enough.
-/

namespace rmq

/-- Largest value of a 32-bit `int`. -/
def INT_MAX : Int := 2147483647

/-- Smallest value of a 32-bit `int`. -/
def INT_MIN : Int := -2147483648

/-- The value of an `int` expression: defined only when it fits in 32 bits. -/
def int_op (x : Int) : Option Int :=
  if INT_MIN ≤ x ∧ x ≤ INT_MAX then some x else none

/-- The conversion `static_cast<int>(size_t)`: reduction modulo `2^32` into the
signed range. -/
def static_cast_int (x : Nat) : Int :=
  ((x : Int) + 2147483648) % 4294967296 - 2147483648

/-- Read `st[p]` of a `vector<int>`, the `int` subscript converted to `size_t`. -/
def vec_get (st : List Int) (p : Int) : Option Int :=
  if 0 ≤ p then st[p.toNat]? else none

/-- Store `st[p] = v` into a `vector<int>`. -/
def vec_set (st : List Int) (p : Int) (v : Int) : Option (List Int) :=
  if 0 ≤ p ∧ p.toNat < st.length then some (st.set p.toNat v) else none

/-- Read `(*A)[i]` of the backing array. -/
def arr_get (A : List Nat) (i : Int) : Option Nat :=
  if 0 ≤ i then A[i.toNat]? else none

/-- The value read at position `i`, `0` where the read is not defined. -/
def val (A : List Nat) (i : Int) : Nat := (arr_get A i).getD 0

/-- Being a position of the array. -/
def valid (A : List Nat) (i : Int) : Prop := 0 ≤ i ∧ i < A.length

/-- Either the sentinel `-1` or a position of the array. -/
def candidate (A : List Nat) (i : Int) : Prop := i = -1 ∨ valid A i

instance (A : List Nat) (i : Int) : Decidable (valid A i) := by
  unfold valid; infer_instance

instance (A : List Nat) (i : Int) : Decidable (candidate A i) := by
  unfold candidate; infer_instance

/-- The engine: pointer to the backing array, its length as an `int`, and the
tree array. -/
structure rmq_segment_tree where
  A : Option (List Nat)
  n : Int
  st : List Int
deriving DecidableEq

namespace rmq_segment_tree

/-- The default constructor `rmq_segment_tree() : A(nullptr), n(0) {}`. -/
def ctor : rmq_segment_tree := { A := none, n := 0, st := [] }

/-- The member `combine(i, j)`: index of the smaller value, the smaller index
on a tie, `-1` being neutral. -/
def combine (A : List Nat) (i j : Int) : Option Int :=
  if i = -1 then some j
  else if j = -1 then some i
  else do
    let vi ← arr_get A i
    let vj ← arr_get A j
    if vi < vj then some i
    else if vj < vi then some j
    else some (if i < j then i else j)

/-- The member `build_rec(p, l, r)`, returning the new tree array and the
returned index. -/
def build_rec (A : List Nat) : Nat → List Int → Int → Int → Int → Option (List Int × Int)
  | 0, _, _, _, _ => none
  | fuel + 1, st, p, l, r =>
    if l = r then do
      let st1 ← vec_set st p l
      some (st1, l)
    else do
      let s ← int_op (l + r)
      let mid := Int.tdiv s 2
      let pl ← int_op (p * 2)
      let (st1, left_idx) ← build_rec A fuel st pl l mid
      let pr ← int_op (pl + 1)
      let m1 ← int_op (mid + 1)
      let (st2, right_idx) ← build_rec A fuel st1 pr m1 r
      let c ← combine A left_idx right_idx
      let st3 ← vec_set st2 p c
      let v ← vec_get st3 p
      some (st3, v)

/-- The member `build(a)`: every field is overwritten. -/
def build (e : rmq_segment_tree) (a : List Nat) : Option rmq_segment_tree :=
  let n := static_cast_int a.length
  if n = 0 then some { e with A := some a, n := n, st := [] }
  else do
    let sz ← int_op (4 * n)
    if sz < 0 then none
    else do
      let hi ← int_op (n - 1)
      let (st1, _) ← build_rec a n.toNat (List.replicate sz.toNat 0) 1 0 hi
      some { e with A := some a, n := n, st := st1 }

/-- The constructor `rmq_segment_tree(const int_vector<>* a) { build(a); }`. -/
def ctor_of (a : List Nat) : Option rmq_segment_tree := build ctor a

/-- The member `query_rec(p, l, r, ql, qr)`. -/
def query_rec (A : List Nat) (st : List Int) : Nat → Int → Int → Int → Int → Int → Option Int
  | 0, _, _, _, _, _ => none
  | fuel + 1, p, l, r, ql, qr =>
    if qr < l ∨ ql > r then some (-1)
    else if ql ≤ l ∧ r ≤ qr then vec_get st p
    else do
      let s ← int_op (l + r)
      let mid := Int.tdiv s 2
      let pl ← int_op (p * 2)
      let left_idx ← query_rec A st fuel pl l mid ql qr
      let pr ← int_op (pl + 1)
      let m1 ← int_op (mid + 1)
      let right_idx ← query_rec A st fuel pr m1 r ql qr
      combine A left_idx right_idx

/-- The member `query(l, r)`. -/
def query (e : rmq_segment_tree) (l r : Int) : Option Int :=
  match e.A with
  | none => some (-1)
  | some a =>
    if e.n = 0 then some (-1)
    else do
      let l1 := if l < 0 then 0 else l
      let r1 ← if r ≥ e.n then int_op (e.n - 1) else some r
      if l1 > r1 then some (-1)
      else do
        let hi ← int_op (e.n - 1)
        query_rec a e.st e.n.toNat 1 0 hi l1 r1

/-- The member `update_rec(p, l, r, idx)`, returning the new tree array. -/
def update_rec (A : List Nat) : Nat → List Int → Int → Int → Int → Int → Option (List Int)
  | 0, _, _, _, _, _ => none
  | fuel + 1, st, p, l, r, idx =>
    if l = r then vec_set st p l
    else do
      let s ← int_op (l + r)
      let mid := Int.tdiv s 2
      -- `p * 2` and `p * 2 + 1` are evaluated on every path: in the branch taken
      -- and again for the two reads below
      let pl ← int_op (p * 2)
      let pr ← int_op (pl + 1)
      let st1 ←
        if idx ≤ mid then update_rec A fuel st pl l mid idx
        else do
          let m1 ← int_op (mid + 1)
          update_rec A fuel st pr m1 r idx
      let a ← vec_get st1 pl
      let b ← vec_get st1 pr
      let c ← combine A a b
      vec_set st1 p c

/-- The member `update(idx)`. -/
def update (e : rmq_segment_tree) (idx : Int) : Option rmq_segment_tree :=
  match e.A with
  | none => some e
  | some a =>
    if e.n = 0 then some e
    else if idx < 0 ∨ idx ≥ e.n then some e
    else do
      let hi ← int_op (e.n - 1)
      let st1 ← update_rec a e.n.toNat e.st 1 0 hi idx
      some { e with st := st1 }

/-- The caller's store `A[k] = v` into the backing array, seen through the
engine's pointer. -/
def write (e : rmq_segment_tree) (k : Nat) (v : Nat) : rmq_segment_tree :=
  { e with A := e.A.map (fun a => a.set k v) }

/-- Node `q` lies in the subtree of node `p`, the children of a node `p` being
`p * 2` and `p * 2 + 1`. -/
inductive Sub : Int → Int → Prop
  | self (p : Int) : Sub p p
  | left {p q : Int} : Sub (p * 2) q → Sub p q
  | right {p q : Int} : Sub (p * 2 + 1) q → Sub p q

/-- Position `i` is the leftmost position of a minimum of `A` on `[l, r]`. -/
def LMin (A : List Nat) (l r i : Int) : Prop :=
  l ≤ i ∧ i ≤ r ∧ ∀ j, l ≤ j → j ≤ r → val A i < val A j ∨ (val A i = val A j ∧ i ≤ j)

/-- The tree invariant below node `p` covering `[l, r]`: a leaf stores its own
position, an inner node stores `combine` of what its two children store. -/
inductive Good (A : List Nat) (st : List Int) : Int → Int → Int → Prop
  | leaf {p l : Int} : vec_get st p = some l → Good A st p l l
  | node {p l r a b c : Int} : l < r →
      Good A st (p * 2) l ((l + r) / 2) → Good A st (p * 2 + 1) ((l + r) / 2 + 1) r →
      vec_get st (p * 2) = some a → vec_get st (p * 2 + 1) = some b →
      combine A a b = some c → vec_get st p = some c → Good A st p l r

/-- The state of an engine that was built over an array whose current
contents are `a`: it points to `a`, `n` is the narrowed length, and when `n` is
not `0` the tree array has `4 * n` entries that satisfy the invariant. -/
def Built (e : rmq_segment_tree) (a : List Nat) : Prop :=
  e.A = some a ∧ e.n = static_cast_int a.length ∧
    (e.n = 0 ∨ (1 ≤ e.n ∧ 4 * e.n ≤ INT_MAX ∧ (e.st.length : Int) = 4 * e.n ∧
      Good a e.st 1 0 (e.n - 1)))

/-- One `U i v` command of `main`: the store `A[i] = v` followed by
`update(static_cast<int>(i))`. -/
def step (e : rmq_segment_tree) (kv : Nat × Nat) : Option rmq_segment_tree :=
  update (write e kv.1 kv.2) (static_cast_int kv.1)

/-- A sequence of `U i v` commands. -/
def run (e : rmq_segment_tree) : List (Nat × Nat) → Option rmq_segment_tree
  | [] => some e
  | kv :: ks => (step e kv).bind fun e1 => run e1 ks

/-- The backing array after a sequence of stores `A[i] = v`. -/
def mutate (a : List Nat) : List (Nat × Nat) → List Nat
  | [] => a
  | kv :: ks => mutate (a.set kv.1 kv.2) ks

/-- The calls `(p, l, r)` made by the recursion of `build_rec` started at
`(p0, l0, r0)`: the start itself and, below a call with `l < r`, the calls on
`(p * 2, l, mid)` and `(p * 2 + 1, mid + 1, r)`.  `query_rec` and `update_rec`
make a subset of these calls. -/
inductive Node (p0 l0 r0 : Int) : Int → Int → Int → Prop
  | root : Node p0 l0 r0 p0 l0 r0
  | left {p l r : Int} : Node p0 l0 r0 p l r → l < r → Node p0 l0 r0 (p * 2) l ((l + r) / 2)
  | right {p l r : Int} : Node p0 l0 r0 p l r → l < r →
      Node p0 l0 r0 (p * 2 + 1) ((l + r) / 2 + 1) r

/-- Node `q` lies on the path from `(p, l, r)` to the leaf of position `idx`:
it is a node below `(p, l, r)` whose range contains `idx`. -/
def OnPath (p l r idx q : Int) : Prop :=
  ∃ ql qr, Node p l r q ql qr ∧ ql ≤ idx ∧ idx ≤ qr

/-- The subscripts at which `build_rec(p, l, r)` accesses `st`, in program
order and in exact arithmetic. -/
def build_rec_idx : Nat → Int → Int → Int → List Int
  | 0, _, _, _ => []
  | fuel + 1, p, l, r =>
    if l = r then [p]
    else
      build_rec_idx fuel (p * 2) l (Int.tdiv (l + r) 2) ++
        build_rec_idx fuel (p * 2 + 1) (Int.tdiv (l + r) 2 + 1) r ++ [p, p]

/-- The subscripts at which `query_rec(p, l, r, ql, qr)` accesses `st`. -/
def query_rec_idx : Nat → Int → Int → Int → Int → Int → List Int
  | 0, _, _, _, _, _ => []
  | fuel + 1, p, l, r, ql, qr =>
    if qr < l ∨ ql > r then []
    else if ql ≤ l ∧ r ≤ qr then [p]
    else
      query_rec_idx fuel (p * 2) l (Int.tdiv (l + r) 2) ql qr ++
        query_rec_idx fuel (p * 2 + 1) (Int.tdiv (l + r) 2 + 1) r ql qr

/-- The subscripts at which `update_rec(p, l, r, idx)` accesses `st`. -/
def update_rec_idx : Nat → Int → Int → Int → Int → List Int
  | 0, _, _, _, _ => []
  | fuel + 1, p, l, r, idx =>
    if l = r then [p]
    else
      (if idx ≤ Int.tdiv (l + r) 2 then update_rec_idx fuel (p * 2) l (Int.tdiv (l + r) 2) idx
        else update_rec_idx fuel (p * 2 + 1) (Int.tdiv (l + r) 2 + 1) r idx) ++
        [p * 2, p * 2 + 1, p]

/-- The member `operator()(size_t l, size_t r)`: both bounds are narrowed to
`int` and passed to `query`. -/
def operator_call (e : rmq_segment_tree) (l r : Nat) : Option Int :=
  query e (static_cast_int l) (static_cast_int r)

end rmq_segment_tree

/-! ## The static variant

`struct rmq_segment_tree` of `RMQ-Segment-Tree-Static.cpp`.  It has the same
three data members, so it is embedded on the same structure; its member
functions are translated from that file. -/

namespace static_variant

/-- The member `combine(i, j)` of the static variant. -/
def combine (A : List Nat) (i j : Int) : Option Int :=
  if i = -1 then some j
  else if j = -1 then some i
  else do
    let vi ← arr_get A i
    let dj ← arr_get A j
    if vi < dj then some i
    else if dj < vi then some j
    else some (if i < j then i else j)

/-- The member `build_rec(p, l, r)` of the static variant. -/
def build_rec (A : List Nat) : Nat → List Int → Int → Int → Int → Option (List Int × Int)
  | 0, _, _, _, _ => none
  | fuel + 1, st, p, l, r =>
    if l = r then do
      let st1 ← vec_set st p l
      some (st1, l)
    else do
      let s ← int_op (l + r)
      let mid := Int.tdiv s 2
      let pl ← int_op (p * 2)
      let (st1, left_idx) ← build_rec A fuel st pl l mid
      let pr ← int_op (pl + 1)
      let m1 ← int_op (mid + 1)
      let (st2, right_idx) ← build_rec A fuel st1 pr m1 r
      let c ← combine A left_idx right_idx
      let st3 ← vec_set st2 p c
      let v ← vec_get st3 p
      some (st3, v)

/-- The member `build(a)` of the static variant. -/
def build (e : rmq_segment_tree) (a : List Nat) : Option rmq_segment_tree :=
  let n := static_cast_int a.length
  if n = 0 then some { e with A := some a, n := n, st := [] }
  else do
    let sz ← int_op (4 * n)
    if sz < 0 then none
    else do
      let hi ← int_op (n - 1)
      let (st1, _) ← build_rec a n.toNat (List.replicate sz.toNat 0) 1 0 hi
      some { e with A := some a, n := n, st := st1 }

/-- The member `query_rec(p, l, r, ql, qr)` of the static variant. -/
def query_rec (A : List Nat) (st : List Int) : Nat → Int → Int → Int → Int → Int → Option Int
  | 0, _, _, _, _, _ => none
  | fuel + 1, p, l, r, ql, qr =>
    if qr < l ∨ r < ql then some (-1)
    else if ql ≤ l ∧ r ≤ qr then vec_get st p
    else do
      let s ← int_op (l + r)
      let mid := Int.tdiv s 2
      let pl ← int_op (p * 2)
      let left_idx ← query_rec A st fuel pl l mid ql qr
      let pr ← int_op (pl + 1)
      let m1 ← int_op (mid + 1)
      let right_idx ← query_rec A st fuel pr m1 r ql qr
      combine A left_idx right_idx

/-- The member `query(l, r)` of the static variant. -/
def query (e : rmq_segment_tree) (l r : Int) : Option Int :=
  match e.A with
  | none => some (-1)
  | some a =>
    if e.n = 0 then some (-1)
    else do
      let l1 := if l < 0 then 0 else l
      let r1 ← if r ≥ e.n then int_op (e.n - 1) else some r
      if l1 > r1 then some (-1)
      else do
        let hi ← int_op (e.n - 1)
        query_rec a e.st e.n.toNat 1 0 hi l1 r1

end static_variant

/-! # Theorems

## Reads, stores and `int` expressions -/

theorem int_op_some {x : Int} (h1 : INT_MIN ≤ x) (h2 : x ≤ INT_MAX) : int_op x = some x := by
  simp [int_op, h1, h2]

theorem int_op_eq_some {x y : Int} (h : int_op x = some y) :
    y = x ∧ INT_MIN ≤ x ∧ x ≤ INT_MAX := by
  unfold int_op at h
  split at h
  · rename_i hx
    exact ⟨by simpa using h.symm, hx.1, hx.2⟩
  · simp at h

theorem vec_get_eq_some {st : List Int} {p v : Int} (h : vec_get st p = some v) :
    0 ≤ p ∧ p < st.length ∧ st[p.toNat]? = some v := by
  unfold vec_get at h
  split at h
  · rename_i hp
    have hlt := (List.getElem?_eq_some.mp h).1
    exact ⟨hp, by omega, h⟩
  · simp at h

theorem vec_get_some {st : List Int} {p : Int} (h0 : 0 ≤ p) (h1 : p < st.length) :
    ∃ v, vec_get st p = some v := by
  have hlt : p.toNat < st.length := by omega
  exact ⟨st[p.toNat], by simp [vec_get, h0, List.getElem?_eq_getElem hlt]⟩

theorem vec_set_some {st : List Int} {p : Int} (v : Int) (h0 : 0 ≤ p) (h1 : p < st.length) :
    vec_set st p v = some (st.set p.toNat v) := by
  have hlt : p.toNat < st.length := by omega
  simp [vec_set, h0, hlt]

theorem vec_set_eq_some {st st1 : List Int} {p v : Int} (h : vec_set st p v = some st1) :
    0 ≤ p ∧ p < st.length ∧ st1 = st.set p.toNat v := by
  unfold vec_set at h
  split at h
  · rename_i hp
    exact ⟨hp.1, by omega, by simpa using h.symm⟩
  · simp at h

theorem vec_set_length {st st1 : List Int} {p v : Int} (h : vec_set st p v = some st1) :
    st1.length = st.length := by
  obtain ⟨_, _, rfl⟩ := vec_set_eq_some h
  simp

theorem vec_get_set_self {st st1 : List Int} {p v : Int} (h : vec_set st p v = some st1) :
    vec_get st1 p = some v := by
  obtain ⟨h0, h1, rfl⟩ := vec_set_eq_some h
  have hlt : p.toNat < st.length := by omega
  simp [vec_get, h0, List.getElem?_set_self hlt]

theorem vec_get_set_ne {st st1 : List Int} {p q v : Int} (h : vec_set st p v = some st1)
    (hq : q ≠ p) : vec_get st1 q = vec_get st q := by
  obtain ⟨h0, _, rfl⟩ := vec_set_eq_some h
  unfold vec_get
  split
  · rename_i hq0
    have hne : p.toNat ≠ q.toNat := by omega
    simp [List.getElem?_set_ne hne]
  · rfl

theorem arr_get_valid {A : List Nat} {i : Int} (h : valid A i) :
    arr_get A i = some (val A i) := by
  obtain ⟨h0, h1⟩ := h
  have hlt : i.toNat < A.length := by omega
  simp [val, arr_get, h0, List.getElem?_eq_getElem hlt]

namespace rmq_segment_tree

theorem combine_valid {A : List Nat} {i j : Int} (hi : valid A i) (hj : valid A j) :
    combine A i j = some (if val A i < val A j then i else if val A j < val A i then j
      else if i < j then i else j) := by
  have hi1 : i ≠ -1 := by have := hi.1; omega
  have hj1 : j ≠ -1 := by have := hj.1; omega
  simp only [combine, hi1, hj1, if_false, arr_get_valid hi, arr_get_valid hj, Option.bind_eq_bind,
    Option.some_bind]
  split_ifs <;> rfl

theorem combine_neg_one_left (A : List Nat) (j : Int) : combine A (-1) j = some j := by
  simp [combine]

theorem combine_neg_one_right (A : List Nat) (i : Int) : combine A i (-1) = some i := by
  by_cases h : i = -1 <;> simp [combine, h]

theorem combine_valid_comm {A : List Nat} {i j : Int} (hi : valid A i) (hj : valid A j) :
    combine A i j = combine A j i := by
  rw [combine_valid hi hj, combine_valid hj hi]
  split_ifs <;> first | rfl | (congr 1; omega)

theorem combine_valid_assoc {A : List Nat} {i j k : Int} (hi : valid A i) (hj : valid A j)
    (hk : valid A k) :
    (combine A i j).bind (fun x => combine A x k)
      = (combine A j k).bind (fun y => combine A i y) := by
  rw [combine_valid hi hj, combine_valid hj hk]
  simp only [Option.some_bind]
  split_ifs <;> simp only [combine_valid hi hj, combine_valid hj hk, combine_valid hi hk] <;>
    split_ifs <;> first | rfl | (congr 1; omega)

/-- C7: `combine` returns the other argument when one is the sentinel `-1`, and
for two positions the index of the strictly smaller value, or the smaller index
when the two values are equal. -/
theorem combine_cases (A : List Nat) (i j : Int) (hi : candidate A i) (hj : candidate A j) :
    (i = -1 → combine A i j = some j) ∧
    (j = -1 → combine A i j = some i) ∧
    (valid A i → valid A j →
      (val A i < val A j → combine A i j = some i) ∧
      (val A j < val A i → combine A i j = some j) ∧
      (val A i = val A j → combine A i j = some (min i j))) := by
  refine ⟨?_, ?_, ?_⟩
  · rintro rfl
    exact combine_neg_one_left A j
  · rintro rfl
    exact combine_neg_one_right A i
  · intro vi vj
    rw [combine_valid vi vj]
    refine ⟨?_, ?_, ?_⟩
    · intro h
      simp [h]
    · intro h
      have h1 : ¬ val A i < val A j := by omega
      simp [h, h1]
    · intro h
      have h1 : ¬ val A i < val A j := by omega
      have h2 : ¬ val A j < val A i := by omega
      simp only [h1, h2, if_false]
      split_ifs <;> (congr 1; omega)

/-- Instance of `combine_cases`: equal values at positions 0 and 2, the smaller
index wins. -/
theorem combine_cases_witness :
    candidate [5, 3, 5] 0 ∧ candidate [5, 3, 5] 2 ∧ combine [5, 3, 5] 0 2 = some (min 0 2) :=
  ⟨by decide, by decide,
    ((combine_cases [5, 3, 5] 0 2 (by decide) (by decide)).2.2 (by decide) (by decide)).2.2
      (by decide)⟩

/-- C10: on candidates (the sentinel or a position) `combine` is commutative and
associative. -/
theorem combine_comm_assoc (A : List Nat) (i j k : Int) (hi : candidate A i)
    (hj : candidate A j) (hk : candidate A k) :
    combine A i j = combine A j i ∧
    (combine A i j).bind (fun x => combine A x k)
      = (combine A j k).bind (fun y => combine A i y) := by
  rcases hi with rfl | hi
  · simp [combine_neg_one_left, combine_neg_one_right]
  rcases hj with rfl | hj
  · simp [combine_neg_one_left, combine_neg_one_right]
  rcases hk with rfl | hk
  · simp only [combine_neg_one_right, Option.some_bind, Option.bind_some, and_true]
    exact combine_valid_comm hi hj
  · exact ⟨combine_valid_comm hi hj, combine_valid_assoc hi hj hk⟩

/-- Instance of `combine_comm_assoc` on three positions holding the same value. -/
theorem combine_comm_assoc_witness :
    combine [4, 4, 4, 1] 2 0 = combine [4, 4, 4, 1] 0 2 ∧
    (combine [4, 4, 4, 1] 2 0).bind (fun x => combine [4, 4, 4, 1] x 1)
      = (combine [4, 4, 4, 1] 0 1).bind (fun y => combine [4, 4, 4, 1] 2 y) :=
  combine_comm_assoc [4, 4, 4, 1] 2 0 1 (by decide) (by decide) (by decide)

theorem query_clamp_right (e : rmq_segment_tree) (l r : Int) (hn : 1 ≤ e.n)
    (hmax : e.n ≤ INT_MAX) (hr : e.n ≤ r) : query e l r = query e l (e.n - 1) := by
  have hn0 : e.n ≠ 0 := by omega
  have hop : int_op (e.n - 1) = some (e.n - 1) :=
    int_op_some (by unfold INT_MIN; omega) (by omega)
  have h1 : ¬ e.n - 1 ≥ e.n := by omega
  unfold query
  cases e.A with
  | none => rfl
  | some a => simp only [hn0, if_false, ge_iff_le, hr, if_true, hop, h1]

/-- C4: on an engine with `n ≥ 1`, a right bound at or beyond `n` is answered as
`n - 1`; and a negative left bound is answered as `0`. -/
theorem query_clamp (e : rmq_segment_tree) (l r : Int) (hn : 1 ≤ e.n) (hmax : e.n ≤ INT_MAX) :
    (e.n ≤ r → query e l r = query e l (e.n - 1)) ∧
    (l < 0 → query e l r = query e 0 r) := by
  constructor
  · exact query_clamp_right e l r hn hmax
  · intro hl
    unfold query
    cases e.A with
    | none => rfl
    | some a => simp [hl]

/-- Instance of `query_clamp` on a one-element engine. -/
theorem query_clamp_witness :
    (1 : Int) ≤ 1 ∧ (1 : Int) ≤ INT_MAX ∧
    ((1 : Int) ≤ 7 → query ⟨some [9], 1, [0, 0, 0, 0]⟩ (-3) 7
        = query ⟨some [9], 1, [0, 0, 0, 0]⟩ (-3) (1 - 1)) ∧
    ((-3 : Int) < 0 → query ⟨some [9], 1, [0, 0, 0, 0]⟩ (-3) 7
        = query ⟨some [9], 1, [0, 0, 0, 0]⟩ 0 7) :=
  ⟨by decide, by decide,
    query_clamp ⟨some [9], 1, [0, 0, 0, 0]⟩ (-3) 7 (by decide) (by decide)⟩

theorem update_noop (e : rmq_segment_tree) (idx : Int)
    (h : idx < 0 ∨ e.n ≤ idx ∨ e.n = 0) : update e idx = some e := by
  unfold update
  cases e.A with
  | none => rfl
  | some a =>
    by_cases hn : e.n = 0
    · simp [hn]
    · have h1 : idx < 0 ∨ e.n ≤ idx := by
        rcases h with h | h | h
        · exact Or.inl h
        · exact Or.inr h
        · exact absurd h hn
      simp [hn, h1]

/-- C6: `update(idx)` with `idx < 0`, `idx ≥ n` or `n = 0` returns the engine as
it was: tree array, `n` and array pointer are unchanged. -/
theorem update_out_of_range (e : rmq_segment_tree) (idx : Int)
    (h : idx < 0 ∨ e.n ≤ idx ∨ e.n = 0) :
    update e idx = some e ∧
      ∀ e1, update e idx = some e1 → e1.st = e.st ∧ e1.n = e.n ∧ e1.A = e.A := by
  have hu := update_noop e idx h
  refine ⟨hu, fun e1 h1 => ?_⟩
  rw [hu] at h1
  obtain rfl : e = e1 := by simpa using h1
  exact ⟨rfl, rfl, rfl⟩

/-- Instance of `update_out_of_range`: index 5 on an engine over three elements. -/
theorem update_out_of_range_witness :
    update ⟨some [4, 2, 7], 3, [0, 1, 1, 2, 0, 1, 0, 0, 0, 0, 0, 0]⟩ 5
      = some ⟨some [4, 2, 7], 3, [0, 1, 1, 2, 0, 1, 0, 0, 0, 0, 0, 0]⟩ :=
  (update_out_of_range ⟨some [4, 2, 7], 3, [0, 1, 1, 2, 0, 1, 0, 0, 0, 0, 0, 0]⟩ 5
    (by decide)).1

/-! ## Subtrees of the implicit tree -/

theorem Sub.le {p q : Int} (h : Sub p q) : 1 ≤ p → p ≤ q := by
  induction h with
  | self p => intro _; exact le_refl p
  | left _ ih => intro hp; have := ih (by omega); omega
  | right _ ih => intro hp; have := ih (by omega); omega

theorem Sub.up {p q : Int} (h : Sub p q) : 1 ≤ p → q = p ∨ Sub p (q / 2) := by
  induction h with
  | self p => intro _; exact Or.inl rfl
  | @left p q _ ih =>
    intro hp
    rcases ih (by omega) with h1 | h1
    · right
      have : q / 2 = p := by omega
      rw [this]
      exact Sub.self p
    · exact Or.inr (Sub.left h1)
  | @right p q _ ih =>
    intro hp
    rcases ih (by omega) with h1 | h1
    · right
      have : q / 2 = p := by omega
      rw [this]
      exact Sub.self p
    · exact Or.inr (Sub.right h1)

theorem Sub.disjoint_aux (p : Int) (hp : 1 ≤ p) :
    ∀ (k : Nat) (q : Int), q ≤ k → Sub (p * 2) q → Sub (p * 2 + 1) q → False := by
  intro k
  induction k with
  | zero =>
    intro q hq h1 _
    have := h1.le (by omega)
    omega
  | succ k ih =>
    intro q hq h1 h2
    have hq1 := h1.le (by omega)
    rcases h1.up (by omega) with e1 | u1
    · have := h2.le (by omega)
      omega
    · rcases h2.up (by omega) with e2 | u2
      · have := u1.le (by omega)
        omega
      · exact ih (q / 2) (by push_cast at hq; omega) u1 u2

theorem Sub.disjoint {p q : Int} (hp : 1 ≤ p) (h1 : Sub (p * 2) q) (h2 : Sub (p * 2 + 1) q) :
    False := by
  have hq := h1.le (by omega)
  exact Sub.disjoint_aux p hp q.toNat q (by omega) h1 h2

theorem Sub.not_left_self {p : Int} (hp : 1 ≤ p) : ¬ Sub (p * 2) p := by
  intro h
  have := h.le (by omega)
  omega

theorem Sub.not_right_self {p : Int} (hp : 1 ≤ p) : ¬ Sub (p * 2 + 1) p := by
  intro h
  have := h.le (by omega)
  omega

/-! ## The tree invariant -/

theorem Good.frame {A : List Nat} {st st1 : List Int} {p l r : Int} (h : Good A st p l r) :
    (∀ q, Sub p q → vec_get st1 q = vec_get st q) → Good A st1 p l r := by
  induction h with
  | leaf hv =>
    intro hq
    exact Good.leaf (by rw [hq _ (Sub.self _)]; exact hv)
  | node hlt _ _ ha hb hc hv ihl ihr =>
    intro hq
    refine Good.node hlt (ihl fun q hs => hq q (Sub.left hs)) (ihr fun q hs => hq q (Sub.right hs))
      ?_ ?_ hc ?_
    · rw [hq _ (Sub.left (Sub.self _))]; exact ha
    · rw [hq _ (Sub.right (Sub.self _))]; exact hb
    · rw [hq _ (Sub.self _)]; exact hv

theorem Good.root {A : List Nat} {st : List Int} {p l r : Int} (h : Good A st p l r) :
    ∃ v, vec_get st p = some v := by
  cases h with
  | leaf hv => exact ⟨_, hv⟩
  | node _ _ _ _ _ _ hv => exact ⟨_, hv⟩

theorem LMin.unique {A : List Nat} {l r i j : Int} (hi : LMin A l r i) (hj : LMin A l r j) :
    i = j := by
  obtain ⟨hi1, hi2, hi3⟩ := hi
  obtain ⟨hj1, hj2, hj3⟩ := hj
  have h1 := hi3 j hj1 hj2
  have h2 := hj3 i hi1 hi2
  omega

theorem LMin.single (A : List Nat) (l : Int) : LMin A l l l := by
  refine ⟨le_refl l, le_refl l, fun j h1 h2 => ?_⟩
  have : j = l := by omega
  subst this
  exact Or.inr ⟨rfl, le_refl _⟩

theorem combine_LMin {A : List Nat} {l m r i j : Int} (h0 : 0 ≤ l) (hr : r < A.length)
    (hi : LMin A l m i) (hj : LMin A (m + 1) r j) :
    ∃ c, combine A i j = some c ∧ LMin A l r c := by
  obtain ⟨hi1, hi2, hi3⟩ := hi
  obtain ⟨hj1, hj2, hj3⟩ := hj
  have vi : valid A i := ⟨by omega, by omega⟩
  have vj : valid A j := ⟨by omega, by omega⟩
  rw [combine_valid vi vj]
  refine ⟨_, rfl, ?_⟩
  have key : ∀ k, l ≤ k → k ≤ r →
      (val A i < val A k ∨ (val A i = val A k ∧ i ≤ k)) ∨
      (val A j < val A k ∨ (val A j = val A k ∧ j ≤ k)) := by
    intro k hk1 hk2
    by_cases hkm : k ≤ m
    · exact Or.inl (hi3 k hk1 hkm)
    · exact Or.inr (hj3 k (by omega) hk2)
  split_ifs with c1 c2 c3
  · refine ⟨by omega, by omega, fun k hk1 hk2 => ?_⟩
    rcases key k hk1 hk2 with h | h <;> omega
  · refine ⟨by omega, by omega, fun k hk1 hk2 => ?_⟩
    rcases key k hk1 hk2 with h | h <;> omega
  · refine ⟨by omega, by omega, fun k hk1 hk2 => ?_⟩
    rcases key k hk1 hk2 with h | h <;> omega
  · refine ⟨by omega, by omega, fun k hk1 hk2 => ?_⟩
    rcases key k hk1 hk2 with h | h <;> omega

theorem Good.lmin {A : List Nat} {st : List Int} {p l r : Int} (h : Good A st p l r) :
    0 ≤ l → r < A.length → ∃ m, vec_get st p = some m ∧ LMin A l r m := by
  induction h with
  | leaf hv => intro _ _; exact ⟨_, hv, LMin.single A _⟩
  | @node p l r a b c hlt _ _ ha hb hc hv ihl ihr =>
    intro h0 hr
    obtain ⟨ma, hma, la⟩ := ihl h0 (by omega)
    obtain ⟨mb, hmb, lb⟩ := ihr (by omega) hr
    rw [ha] at hma
    rw [hb] at hmb
    obtain rfl : a = ma := by simpa using hma
    obtain rfl : b = mb := by simpa using hmb
    obtain ⟨c1, hc1, lc⟩ := combine_LMin h0 hr la lb
    rw [hc] at hc1
    obtain rfl : c = c1 := by simpa using hc1
    exact ⟨c, hv, lc⟩

theorem Good.agree {A0 A : List Nat} {st : List Int} {p l r : Int} (h : Good A0 st p l r)
    (hlen : A.length = A0.length) :
    0 ≤ l → r < A0.length → (∀ i, l ≤ i → i ≤ r → val A i = val A0 i) → Good A st p l r := by
  induction h with
  | leaf hv => intro _ _ _; exact Good.leaf hv
  | @node p l r a b c hlt gl gr ha hb hc hv ihl ihr =>
    intro h0 hr hag
    have gl1 := ihl h0 (by omega) (fun i h1 h2 => hag i h1 (by omega))
    have gr1 := ihr (by omega) hr (fun i h1 h2 => hag i (by omega) h2)
    obtain ⟨ma, hma, la⟩ := gl.lmin h0 (by omega)
    obtain ⟨mb, hmb, lb⟩ := gr.lmin (by omega) hr
    rw [ha] at hma
    rw [hb] at hmb
    obtain rfl : a = ma := by simpa using hma
    obtain rfl : b = mb := by simpa using hmb
    have va0 : valid A0 a := ⟨by have := la.1; omega, by have := la.2.1; omega⟩
    have vb0 : valid A0 b := ⟨by have := lb.1; omega, by have := lb.2.1; omega⟩
    have va : valid A a := ⟨va0.1, by rw [hlen]; exact va0.2⟩
    have vb : valid A b := ⟨vb0.1, by rw [hlen]; exact vb0.2⟩
    have ea : val A a = val A0 a := hag a (by have := la.1; omega) (by have := la.2.1; omega)
    have eb : val A b = val A0 b := hag b (by have := lb.1; omega) (by have := lb.2.1; omega)
    have hc1 : combine A a b = some c := by
      rw [combine_valid va vb, ea, eb, ← combine_valid va0 vb0]
      exact hc
    exact Good.node hlt gl1 gr1 ha hb hc1 hv

/-! ## `build_rec` establishes the invariant -/

theorem tdiv_two {s : Int} (h : 0 ≤ s) : Int.tdiv s 2 = s / 2 :=
  Int.tdiv_eq_ediv h (by decide)

theorem width_step {d x w n : Int} (hw : 0 ≤ w) (hd : 2 * d ≤ x) (hx : x * w < n) :
    d * (2 * w) < n := by
  have h1 := mul_le_mul_of_nonneg_right hd hw
  have e : d * (2 * w) = 2 * d * w := by ring
  linarith

theorem width_le {x w n : Int} (hw : 0 ≤ w) (h1 : 1 ≤ x) (hx : x * w < n) : w < n := by
  have h2 := mul_le_mul_of_nonneg_right h1 hw
  linarith

theorem build_rec_spec (A : List Nat) (n : Int) (hn : 4 * n ≤ INT_MAX) :
    ∀ (fuel : Nat) (st : List Int) (p l r w : Int),
      0 ≤ l → l ≤ r → r < n → r < A.length → r - l < fuel → 1 ≤ p → p < 4 * n → p < 2 * w →
      (r - l) * w < n → (st.length : Int) = 4 * n →
      ∃ st1 v, build_rec A fuel st p l r = some (st1, v) ∧ st1.length = st.length ∧
        Good A st1 p l r ∧ vec_get st1 p = some v ∧
        ∀ q, ¬ Sub p q → vec_get st1 q = vec_get st q := by
  have hn1 : 4 * n ≤ 2147483647 := hn
  intro fuel
  induction fuel with
  | zero =>
    intro st p l r w _ hlr _ _ hf
    simp at hf
    omega
  | succ fuel ih =>
    intro st p l r w h0 hlr hrn hrA hf hp hp4 hpw hw hlen
    by_cases heq : l = r
    · subst heq
      have hset := vec_set_some l (by omega : 0 ≤ p) (by omega : p < st.length)
      refine ⟨st.set p.toNat l, l, ?_, by simp, Good.leaf (vec_get_set_self hset),
        vec_get_set_self hset, ?_⟩
      · simp [build_rec, hset]
      · intro q hq
        exact vec_get_set_ne hset (fun h => hq (h ▸ Sub.self p))
    · have hlt : l < r := by omega
      have hw0 : 0 ≤ w := by omega
      have hwn : w < n := width_le hw0 (by omega) hw
      have hs : int_op (l + r) = some (l + r) :=
        int_op_some (by unfold INT_MIN; omega) (by unfold INT_MAX; omega)
      have hmid : Int.tdiv (l + r) 2 = (l + r) / 2 := tdiv_two (by omega)
      have hpl : int_op (p * 2) = some (p * 2) :=
        int_op_some (by unfold INT_MIN; omega) (by unfold INT_MAX; omega)
      have hpr : int_op (p * 2 + 1) = some (p * 2 + 1) :=
        int_op_some (by unfold INT_MIN; omega) (by unfold INT_MAX; omega)
      have hm1 : int_op ((l + r) / 2 + 1) = some ((l + r) / 2 + 1) :=
        int_op_some (by unfold INT_MIN; omega) (by unfold INT_MAX; omega)
      obtain ⟨st1, a, hb1, hl1, g1, hv1, f1⟩ :=
        ih st (p * 2) l ((l + r) / 2) (2 * w) h0 (by omega) (by omega) (by omega)
          (by push_cast at hf; omega) (by omega) (by omega) (by omega)
          (width_step hw0 (by omega) hw) hlen
      obtain ⟨st2, b, hb2, hl2, g2, hv2, f2⟩ :=
        ih st1 (p * 2 + 1) ((l + r) / 2 + 1) r (2 * w) (by omega) (by omega) hrn hrA
          (by push_cast at hf; omega) (by omega) (by omega) (by omega)
          (width_step hw0 (by omega) hw) (by rw [hl1]; exact hlen)
      have g1b : Good A st2 (p * 2) l ((l + r) / 2) :=
        g1.frame fun q hq => f2 q fun hq2 => Sub.disjoint hp hq hq2
      have hv1b : vec_get st2 (p * 2) = some a := by
        rw [f2 _ fun hq2 => Sub.disjoint hp (Sub.self _) hq2]
        exact hv1
      obtain ⟨ma, hma, la⟩ := g1b.lmin h0 (by omega)
      obtain ⟨mb, hmb, lb⟩ := g2.lmin (by omega) hrA
      rw [hv1b] at hma
      rw [hv2] at hmb
      obtain rfl : a = ma := by simpa using hma
      obtain rfl : b = mb := by simpa using hmb
      obtain ⟨c, hc, _⟩ := combine_LMin h0 hrA la lb
      have hset := vec_set_some c (by omega : 0 ≤ p) (by rw [hl2, hl1]; omega : p < st2.length)
      have hget := vec_get_set_self hset
      have hne : ∀ q, Sub (p * 2) q ∨ Sub (p * 2 + 1) q → q ≠ p := by
        rintro q (hq | hq) rfl
        · exact Sub.not_left_self hp hq
        · exact Sub.not_right_self hp hq
      refine ⟨st2.set p.toNat c, c, ?_, by simp [hl1, hl2], ?_, hget, ?_⟩
      · simp only [build_rec, heq, if_false, hs, hmid, hpl, hpr, hm1, hb1, hb2, hc, hset, hget,
          Option.bind_eq_bind, Option.some_bind]
      · refine Good.node hlt (g1b.frame fun q hq => vec_get_set_ne hset (hne q (Or.inl hq)))
          (g2.frame fun q hq => vec_get_set_ne hset (hne q (Or.inr hq))) ?_ ?_ hc hget
        · rw [vec_get_set_ne hset (hne _ (Or.inl (Sub.self _)))]
          exact hv1b
        · rw [vec_get_set_ne hset (hne _ (Or.inr (Sub.self _)))]
          exact hv2
      · intro q hq
        have hq0 : q ≠ p := fun h => hq (h ▸ Sub.self p)
        rw [vec_get_set_ne hset hq0, f2 q fun h => hq (Sub.right h),
          f1 q fun h => hq (Sub.left h)]

/-! ## `query_rec` on a tree that satisfies the invariant -/

theorem query_rec_spec (A : List Nat) (st : List Int) (hst : (st.length : Int) ≤ INT_MAX) :
    ∀ (fuel : Nat) (p l r ql qr : Int), Good A st p l r → 0 ≤ l → l ≤ r → r < A.length →
      2 * r ≤ INT_MAX → r - l < fuel → ql ≤ qr →
      ∃ v, query_rec A st fuel p l r ql qr = some v ∧
        ((qr < l ∨ r < ql) → v = -1) ∧
        (¬ (qr < l ∨ r < ql) → LMin A (max l ql) (min r qr) v) := by
  have hst1 : (st.length : Int) ≤ 2147483647 := hst
  intro fuel
  induction fuel with
  | zero =>
    intro p l r ql qr _ _ hlr _ _ hf
    simp at hf
    omega
  | succ fuel ih =>
    intro p l r ql qr hg h0 hlr hrA hr2 hf hq
    have hr2a : 2 * r ≤ 2147483647 := hr2
    by_cases hout : qr < l ∨ r < ql
    · exact ⟨-1, by simp [query_rec, hout], fun _ => rfl, fun h => absurd hout h⟩
    by_cases hin : ql ≤ l ∧ r ≤ qr
    · obtain ⟨m, hm, lm⟩ := hg.lmin h0 hrA
      refine ⟨m, by simp [query_rec, hout, hin, hm], fun h => absurd h hout, fun _ => ?_⟩
      have e1 : max l ql = l := by omega
      have e2 : min r qr = r := by omega
      rw [e1, e2]
      exact lm
    cases hg with
    | leaf hv => omega
    | @node _ _ _ a b c hlt gl gr ha hb hc hv =>
      have hpa := vec_get_eq_some ha
      have hpb := vec_get_eq_some hb
      have hs : int_op (l + r) = some (l + r) :=
        int_op_some (by unfold INT_MIN; omega) (by unfold INT_MAX; omega)
      have hmid : Int.tdiv (l + r) 2 = (l + r) / 2 := tdiv_two (by omega)
      have hpl : int_op (p * 2) = some (p * 2) :=
        int_op_some (by unfold INT_MIN; omega) (by unfold INT_MAX; omega)
      have hpr : int_op (p * 2 + 1) = some (p * 2 + 1) :=
        int_op_some (by unfold INT_MIN; omega) (by unfold INT_MAX; omega)
      have hm1 : int_op ((l + r) / 2 + 1) = some ((l + r) / 2 + 1) :=
        int_op_some (by unfold INT_MIN; omega) (by unfold INT_MAX; omega)
      obtain ⟨va, hqa, oa, ia⟩ := ih (p * 2) l ((l + r) / 2) ql qr gl h0 (by omega) (by omega)
        (by unfold INT_MAX; omega) (by push_cast at hf; omega) hq
      obtain ⟨vb, hqb, ob, ib⟩ := ih (p * 2 + 1) ((l + r) / 2 + 1) r ql qr gr (by omega)
        (by omega) hrA hr2 (by push_cast at hf; omega) hq
      have hred : query_rec A st (fuel + 1) p l r ql qr = combine A va vb := by
        simp only [query_rec, gt_iff_lt, hout, hin, if_false, hs, hmid, hpl, hpr, hm1, hqa, hqb,
          Option.bind_eq_bind, Option.some_bind]
      rw [hred]
      by_cases houta : qr < l ∨ (l + r) / 2 < ql
      · have hnb : ¬ (qr < (l + r) / 2 + 1 ∨ r < ql) := by omega
        have lb := ib hnb
        rw [oa houta]
        refine ⟨vb, combine_neg_one_left A vb, fun h => absurd h hout, fun _ => ?_⟩
        have e1 : max ((l + r) / 2 + 1) ql = max l ql := by omega
        rw [← e1]
        exact lb
      · have la := ia houta
        by_cases houtb : qr < (l + r) / 2 + 1 ∨ r < ql
        · rw [ob houtb]
          refine ⟨va, combine_neg_one_right A va, fun h => absurd h hout, fun _ => ?_⟩
          have e2 : min ((l + r) / 2) qr = min r qr := by omega
          rw [← e2]
          exact la
        · have lb := ib houtb
          have e1 : max ((l + r) / 2 + 1) ql = (l + r) / 2 + 1 := by omega
          have e2 : min ((l + r) / 2) qr = (l + r) / 2 := by omega
          rw [e1] at lb
          rw [e2] at la
          obtain ⟨c1, hc1, lc⟩ := combine_LMin (by omega : 0 ≤ max l ql)
            (by omega : min r qr < A.length) la lb
          exact ⟨c1, hc1, fun h => absurd h hout, fun _ => lc⟩

/-! ## `update_rec` re-establishes the invariant after a store -/

theorem Node.of_left {p l r q ql qr : Int} (hlt : l < r)
    (h : Node (p * 2) l ((l + r) / 2) q ql qr) : Node p l r q ql qr := by
  induction h with
  | root => exact Node.left Node.root hlt
  | left _ h1 ih => exact Node.left ih h1
  | right _ h1 ih => exact Node.right ih h1

theorem Node.of_right {p l r q ql qr : Int} (hlt : l < r)
    (h : Node (p * 2 + 1) ((l + r) / 2 + 1) r q ql qr) : Node p l r q ql qr := by
  induction h with
  | root => exact Node.right Node.root hlt
  | left _ h1 ih => exact Node.left ih h1
  | right _ h1 ih => exact Node.right ih h1

theorem OnPath.at_root {p l r idx : Int} (h1 : l ≤ idx) (h2 : idx ≤ r) : OnPath p l r idx p :=
  ⟨l, r, Node.root, h1, h2⟩

theorem OnPath.lift_left {p l r idx q : Int} (hlt : l < r)
    (h : OnPath (p * 2) l ((l + r) / 2) idx q) : OnPath p l r idx q := by
  obtain ⟨ql, qr, hn, h1, h2⟩ := h
  exact ⟨ql, qr, Node.of_left hlt hn, h1, h2⟩

theorem OnPath.lift_right {p l r idx q : Int} (hlt : l < r)
    (h : OnPath (p * 2 + 1) ((l + r) / 2 + 1) r idx q) : OnPath p l r idx q := by
  obtain ⟨ql, qr, hn, h1, h2⟩ := h
  exact ⟨ql, qr, Node.of_right hlt hn, h1, h2⟩

theorem update_rec_spec (A0 A : List Nat) (hlen : A.length = A0.length) :
    ∀ (fuel : Nat) (st : List Int) (p l r idx : Int), Good A0 st p l r → 0 ≤ l → l ≤ r →
      r < A.length → 2 * r ≤ INT_MAX → (st.length : Int) ≤ INT_MAX → r - l < fuel → 1 ≤ p →
      (∀ i, l ≤ i → i ≤ r → i ≠ idx → val A i = val A0 i) → l ≤ idx → idx ≤ r →
      ∃ st1, update_rec A fuel st p l r idx = some st1 ∧ st1.length = st.length ∧
        Good A st1 p l r ∧ (∀ q, ¬ Sub p q → vec_get st1 q = vec_get st q) ∧
        ∀ q, ¬ OnPath p l r idx q → vec_get st1 q = vec_get st q := by
  intro fuel
  induction fuel with
  | zero =>
    intro st p l r idx _ _ hlr _ _ _ hf
    simp at hf
    omega
  | succ fuel ih =>
    intro st p l r idx hg h0 hlr hrA hr2 hst hf hp hag hli hir
    have hr2a : 2 * r ≤ 2147483647 := hr2
    have hst1 : (st.length : Int) ≤ 2147483647 := hst
    cases hg with
    | leaf hv =>
      have hpv := vec_get_eq_some hv
      have hset := vec_set_some l hpv.1 hpv.2.1
      refine ⟨st.set p.toNat l, by simp [update_rec, hset], by simp,
        Good.leaf (vec_get_set_self hset), ?_, ?_⟩
      · intro q hq
        exact vec_get_set_ne hset (fun h => hq (h ▸ Sub.self p))
      · intro q hq
        exact vec_get_set_ne hset (fun h => hq (h ▸ OnPath.at_root hli hir))
    | @node _ _ _ a b c hlt gl gr ha hb hc hv =>
      have hpa := vec_get_eq_some ha
      have hpb := vec_get_eq_some hb
      have hpv := vec_get_eq_some hv
      have heq : ¬ l = r := by omega
      have hs : int_op (l + r) = some (l + r) :=
        int_op_some (by unfold INT_MIN; omega) (by unfold INT_MAX; omega)
      have hmid : Int.tdiv (l + r) 2 = (l + r) / 2 := tdiv_two (by omega)
      have hpl : int_op (p * 2) = some (p * 2) :=
        int_op_some (by unfold INT_MIN; omega) (by unfold INT_MAX; omega)
      have hpr : int_op (p * 2 + 1) = some (p * 2 + 1) :=
        int_op_some (by unfold INT_MIN; omega) (by unfold INT_MAX; omega)
      have hm1 : int_op ((l + r) / 2 + 1) = some ((l + r) / 2 + 1) :=
        int_op_some (by unfold INT_MIN; omega) (by unfold INT_MAX; omega)
      have hne : ∀ q, Sub (p * 2) q ∨ Sub (p * 2 + 1) q → q ≠ p := by
        rintro q (hq | hq) rfl
        · exact Sub.not_left_self hp hq
        · exact Sub.not_right_self hp hq
      -- the tree after the recursive call: both children satisfy the invariant for `A`
      have hrec : ∃ st1, (if idx ≤ (l + r) / 2 then update_rec A fuel st (p * 2) l ((l + r) / 2) idx
            else update_rec A fuel st (p * 2 + 1) ((l + r) / 2 + 1) r idx) = some st1 ∧
          st1.length = st.length ∧ Good A st1 (p * 2) l ((l + r) / 2) ∧
          Good A st1 (p * 2 + 1) ((l + r) / 2 + 1) r ∧
          (∀ q, ¬ Sub p q → vec_get st1 q = vec_get st q) ∧
          ∀ q, ¬ OnPath p l r idx q → vec_get st1 q = vec_get st q := by
        by_cases hi : idx ≤ (l + r) / 2
        · obtain ⟨st1, hu, hl1, g1, f1, k1⟩ := ih st (p * 2) l ((l + r) / 2) idx gl h0 (by omega)
            (by omega) (by unfold INT_MAX; omega) hst (by push_cast at hf; omega) (by omega)
            (fun i h1 h2 h3 => hag i h1 (by omega) h3) hli hi
          refine ⟨st1, by simp only [hi, if_true]; exact hu, hl1, g1, ?_, ?_, ?_⟩
          · have gr1 : Good A st (p * 2 + 1) ((l + r) / 2 + 1) r :=
              gr.agree hlen (by omega) (by omega) (fun i h1 h2 => hag i (by omega) h2 (by omega))
            exact gr1.frame fun q hq => f1 q fun hq1 => Sub.disjoint hp hq1 hq
          · intro q hq
            exact f1 q fun h => hq (Sub.left h)
          · intro q hq
            exact k1 q fun h => hq (OnPath.lift_left hlt h)
        · obtain ⟨st1, hu, hl1, g1, f1, k1⟩ := ih st (p * 2 + 1) ((l + r) / 2 + 1) r idx gr
            (by omega) (by omega) hrA hr2 hst (by push_cast at hf; omega) (by omega)
            (fun i h1 h2 h3 => hag i (by omega) h2 h3) (by omega) hir
          refine ⟨st1, by simp only [hi, if_false]; exact hu, hl1, ?_, g1, ?_, ?_⟩
          · have gl1 : Good A st (p * 2) l ((l + r) / 2) :=
              gl.agree hlen h0 (by omega) (fun i h1 h2 => hag i h1 (by omega) (by omega))
            exact gl1.frame fun q hq => f1 q fun hq1 => Sub.disjoint hp hq hq1
          · intro q hq
            exact f1 q fun h => hq (Sub.right h)
          · intro q hq
            exact k1 q fun h => hq (OnPath.lift_right hlt h)
      obtain ⟨st1, hu, hl1, g1, g2, f1, k1⟩ := hrec
      obtain ⟨ma, hma, la⟩ := g1.lmin h0 (by omega)
      obtain ⟨mb, hmb, lb⟩ := g2.lmin (by omega) hrA
      obtain ⟨c1, hc1, _⟩ := combine_LMin h0 hrA la lb
      have hset := vec_set_some c1 hpv.1 (by rw [hl1]; exact hpv.2.1 : p < st1.length)
      have hget := vec_get_set_self hset
      refine ⟨st1.set p.toNat c1, ?_, by simp [hl1], ?_, ?_, ?_⟩
      · simp only [update_rec, heq, if_false, hs, hmid, hpl, hpr, hm1, Option.bind_eq_bind,
          Option.some_bind]
        by_cases hi : idx ≤ (l + r) / 2
        · simp only [hi, if_true] at hu ⊢
          simp only [hu, Option.some_bind, hma, hmb, hc1, hset]
        · simp only [hi, if_false] at hu ⊢
          simp only [hu, Option.some_bind, hma, hmb, hc1, hset]
      · refine Good.node hlt (g1.frame fun q hq => vec_get_set_ne hset (hne q (Or.inl hq)))
          (g2.frame fun q hq => vec_get_set_ne hset (hne q (Or.inr hq))) ?_ ?_ hc1 hget
        · rw [vec_get_set_ne hset (hne _ (Or.inl (Sub.self _)))]
          exact hma
        · rw [vec_get_set_ne hset (hne _ (Or.inr (Sub.self _)))]
          exact hmb
      · intro q hq
        have hq0 : q ≠ p := fun h => hq (h ▸ Sub.self p)
        rw [vec_get_set_ne hset hq0, f1 q hq]
      · intro q hq
        have hq0 : q ≠ p := fun h => hq (h ▸ OnPath.at_root hli hir)
        rw [vec_get_set_ne hset hq0, k1 q hq]

/-! ## The public entry points -/

theorem static_cast_int_le (x : Nat) : static_cast_int x ≤ x := by
  unfold static_cast_int
  omega

theorem static_cast_int_of_le {x : Nat} (h : (x : Int) ≤ INT_MAX) : static_cast_int x = x := by
  unfold static_cast_int
  unfold INT_MAX at h
  omega

theorem static_cast_int_range (x : Nat) :
    INT_MIN ≤ static_cast_int x ∧ static_cast_int x ≤ INT_MAX := by
  unfold static_cast_int INT_MIN INT_MAX
  omega

theorem build_unfold (e : rmq_segment_tree) (a : List Nat) (n : Int)
    (hn : static_cast_int a.length = n) :
    build e a =
      if n = 0 then some ⟨some a, n, []⟩
      else (int_op (4 * n)).bind fun sz =>
        if sz < 0 then none
        else (int_op (n - 1)).bind fun hi =>
          (build_rec a n.toNat (List.replicate sz.toNat 0) 1 0 hi).bind fun x =>
            some ⟨some a, n, x.1⟩ := by
  subst hn
  rfl

theorem build_zero (e : rmq_segment_tree) (a : List Nat) (h : static_cast_int a.length = 0) :
    build e a = some ⟨some a, 0, []⟩ := by
  rw [build_unfold e a 0 h, if_pos rfl]

theorem build_fail (e : rmq_segment_tree) (a : List Nat)
    (h : static_cast_int a.length < 0 ∨ INT_MAX < 4 * static_cast_int a.length) :
    build e a = none := by
  have hr := static_cast_int_range a.length
  rw [build_unfold e a _ rfl]
  generalize static_cast_int a.length = n at *
  unfold INT_MAX at h
  unfold INT_MIN INT_MAX at hr
  have hne : n ≠ 0 := by omega
  rw [if_neg hne]
  by_cases hov : INT_MIN ≤ 4 * n ∧ 4 * n ≤ INT_MAX
  · have hneg : 4 * n < 0 := by
      unfold INT_MIN INT_MAX at hov
      omega
    rw [int_op_some hov.1 hov.2, Option.some_bind, if_pos hneg]
  · have hop : int_op (4 * n) = none := by
      unfold int_op
      rw [if_neg hov]
    rw [hop, Option.none_bind]

theorem build_ok (e : rmq_segment_tree) (a : List Nat) (hn1 : 1 ≤ static_cast_int a.length)
    (hn2 : 4 * static_cast_int a.length ≤ INT_MAX) :
    ∃ st1, build e a = some ⟨some a, static_cast_int a.length, st1⟩ ∧
      (st1.length : Int) = 4 * static_cast_int a.length ∧
      Good a st1 1 0 (static_cast_int a.length - 1) := by
  have hle := static_cast_int_le a.length
  rw [build_unfold e a _ rfl]
  generalize static_cast_int a.length = n at *
  have hn2a : 4 * n ≤ 2147483647 := hn2
  have hne : n ≠ 0 := by omega
  have hsz : int_op (4 * n) = some (4 * n) :=
    int_op_some (by unfold INT_MIN; omega) hn2
  have hhi : int_op (n - 1) = some (n - 1) :=
    int_op_some (by unfold INT_MIN; omega) (by unfold INT_MAX; omega)
  have hneg : ¬ 4 * n < 0 := by omega
  obtain ⟨st1, v, hb, hl, g, _, _⟩ := build_rec_spec a n hn2 n.toNat
    (List.replicate (4 * n).toNat 0) 1 0 (n - 1) 1 (le_refl 0) (by omega) (by omega) (by omega)
    (by omega) (le_refl 1) (by omega) (by omega) (by omega)
    (by rw [List.length_replicate]; omega)
  refine ⟨st1, ?_, ?_, g⟩
  · rw [if_neg hne, hsz, Option.some_bind, if_neg hneg, hhi, Option.some_bind, hb,
      Option.some_bind]
  · rw [hl, List.length_replicate]
    omega

theorem build_built {e e1 : rmq_segment_tree} {a : List Nat} (h : build e a = some e1) :
    Built e1 a := by
  by_cases h0 : static_cast_int a.length = 0
  · rw [build_zero e a h0] at h
    obtain rfl : ⟨some a, 0, []⟩ = e1 := by simpa using h
    exact ⟨rfl, h0.symm, Or.inl rfl⟩
  by_cases hbad : static_cast_int a.length < 0 ∨ INT_MAX < 4 * static_cast_int a.length
  · rw [build_fail e a hbad] at h
    simp at h
  · have hn1 : 1 ≤ static_cast_int a.length := by omega
    have hn2 : 4 * static_cast_int a.length ≤ INT_MAX := by omega
    obtain ⟨st1, hb, hl, g⟩ := build_ok e a hn1 hn2
    rw [hb] at h
    obtain rfl : (⟨some a, static_cast_int a.length, st1⟩ : rmq_segment_tree) = e1 := by
      simpa using h
    exact ⟨rfl, rfl, Or.inr ⟨hn1, hn2, hl, g⟩⟩

theorem build_indep (e e1 : rmq_segment_tree) (a : List Nat) : build e a = build e1 a := by
  simp [build]

theorem query_spec {e : rmq_segment_tree} {a : List Nat} (hb : Built e a) (hn : 1 ≤ e.n)
    (l r : Int) :
    (min r (e.n - 1) < max l 0 → query e l r = some (-1)) ∧
    (max l 0 ≤ min r (e.n - 1) →
      ∃ i, query e l r = some i ∧ LMin a (max l 0) (min r (e.n - 1)) i) := by
  obtain ⟨hA, hna, hgood⟩ := hb
  have hle := static_cast_int_le a.length
  rcases hgood with h0 | ⟨_, h4, hlen, g⟩
  · omega
  have h4a : 4 * e.n ≤ 2147483647 := h4
  have hne : e.n ≠ 0 := by omega
  have hhi : int_op (e.n - 1) = some (e.n - 1) :=
    int_op_some (by unfold INT_MIN; omega) (by unfold INT_MAX; omega)
  have el : (if l < 0 then 0 else l) = max l 0 := by
    split_ifs <;> omega
  have hq : query e l r = if max l 0 > min r (e.n - 1) then some (-1)
      else query_rec a e.st e.n.toNat 1 0 (e.n - 1) (max l 0) (min r (e.n - 1)) := by
    simp only [query, hA, hne, if_false, el, hhi, Option.bind_eq_bind, Option.some_bind]
    by_cases hc : r ≥ e.n
    · have e2 : min r (e.n - 1) = e.n - 1 := by omega
      rw [if_pos hc, e2]
    · have e2 : min r (e.n - 1) = r := by omega
      rw [if_neg hc, e2]
  constructor
  · intro h
    rw [hq, if_pos h]
  · intro h
    have hng : ¬ max l 0 > min r (e.n - 1) := by omega
    rw [hq, if_neg hng]
    obtain ⟨v, hv, _, hin⟩ := query_rec_spec a e.st (by unfold INT_MAX; omega) e.n.toNat 1 0
      (e.n - 1) (max l 0) (min r (e.n - 1)) g (le_refl 0) (by omega) (by omega)
      (by unfold INT_MAX; omega) (by omega) h
    have hno : ¬ (min r (e.n - 1) < 0 ∨ e.n - 1 < max l 0) := by omega
    have lm := hin hno
    have e1 : max 0 (max l 0) = max l 0 := by omega
    have e2 : min (e.n - 1) (min r (e.n - 1)) = min r (e.n - 1) := by omega
    rw [e1, e2] at lm
    exact ⟨v, hv, lm⟩

theorem query_empty {e : rmq_segment_tree} (h : e.A = none ∨ e.n = 0) (l r : Int) :
    query e l r = some (-1) := by
  unfold query
  cases hA : e.A with
  | none => rfl
  | some a =>
    rcases h with h | h
    · rw [hA] at h
      simp at h
    · simp [h]

theorem query_eq_of_built {e1 e2 : rmq_segment_tree} {a : List Nat} (h1 : Built e1 a)
    (h2 : Built e2 a) (l r : Int) : query e1 l r = query e2 l r := by
  have hn : e1.n = e2.n := by rw [h1.2.1, h2.2.1]
  by_cases h0 : e1.n = 0
  · rw [query_empty (Or.inr h0), query_empty (Or.inr (hn ▸ h0))]
  · have hp1 : 1 ≤ e1.n := by
      rcases h1.2.2 with h | h
      · exact absurd h h0
      · exact h.1
    have hp2 : 1 ≤ e2.n := hn ▸ hp1
    obtain ⟨a1, b1⟩ := query_spec h1 hp1 l r
    obtain ⟨a2, b2⟩ := query_spec h2 hp2 l r
    by_cases hc : min r (e1.n - 1) < max l 0
    · rw [a1 hc, a2 (hn ▸ hc)]
    · obtain ⟨i, hi, li⟩ := b1 (by omega)
      obtain ⟨j, hj, lj⟩ := b2 (by rw [← hn]; omega)
      rw [← hn] at lj
      rw [hi, hj, li.unique lj]

theorem build_of_length_eq {e e0 : rmq_segment_tree} {a b : List Nat} (hlen : b.length = a.length)
    (h : build e a = some e0) : ∃ e2, build e b = some e2 := by
  by_cases h0 : static_cast_int a.length = 0
  · exact ⟨_, build_zero e b (by rw [hlen]; exact h0)⟩
  by_cases hbad : static_cast_int a.length < 0 ∨ INT_MAX < 4 * static_cast_int a.length
  · rw [build_fail e a hbad] at h
    simp at h
  · obtain ⟨st1, hb, _, _⟩ := build_ok e b (by rw [hlen]; omega) (by rw [hlen]; omega)
    exact ⟨_, hb⟩

theorem val_set_ne (a : List Nat) (k v : Nat) (i : Int) (h : i ≠ k) :
    val (a.set k v) i = val a i := by
  unfold val arr_get
  split
  · have hne : k ≠ i.toNat := by omega
    simp [List.getElem?_set_ne hne]
  · rfl

theorem update_built {e : rmq_segment_tree} {a0 a : List Nat} (hb : Built e a0)
    (hlen : a.length = a0.length) (idx : Int)
    (hag : ∀ i, 0 ≤ i → i < e.n → i ≠ idx → val a i = val a0 i) :
    ∃ e1, update ⟨some a, e.n, e.st⟩ idx = some e1 ∧ Built e1 a ∧
      e1.st.length = e.st.length ∧
      ∀ q, ¬ OnPath 1 0 (e.n - 1) idx q → vec_get e1.st q = vec_get e.st q := by
  obtain ⟨_, hna, hgood⟩ := hb
  have hle := static_cast_int_le a0.length
  have hna1 : e.n = static_cast_int a.length := by rw [hlen]; exact hna
  rcases hgood with h0 | ⟨hn1, h4, hl4, g⟩
  · exact ⟨_, update_noop _ _ (Or.inr (Or.inr h0)), ⟨rfl, hna1, Or.inl h0⟩, rfl, fun _ _ => rfl⟩
  have h4a : 4 * e.n ≤ 2147483647 := h4
  by_cases hout : idx < 0 ∨ e.n ≤ idx
  · have hno : idx < 0 ∨ e.n ≤ idx ∨ e.n = 0 := by
      rcases hout with h | h
      · exact Or.inl h
      · exact Or.inr (Or.inl h)
    refine ⟨_, update_noop ⟨some a, e.n, e.st⟩ idx hno, ⟨rfl, hna1, Or.inr ⟨hn1, h4, hl4, ?_⟩⟩,
      rfl, fun _ _ => rfl⟩
    exact g.agree hlen (le_refl 0) (by omega) fun i h1 h2 => hag i h1 (by omega) (by omega)
  · have hne : e.n ≠ 0 := by omega
    have hhi : int_op (e.n - 1) = some (e.n - 1) :=
      int_op_some (by unfold INT_MIN; omega) (by unfold INT_MAX; omega)
    obtain ⟨st1, hu, hl1, g1, _, k1⟩ := update_rec_spec a0 a hlen e.n.toNat e.st 1 0
      (e.n - 1) idx g (le_refl 0) (by omega) (by rw [hlen]; omega)
      (by unfold INT_MAX; omega) (by unfold INT_MAX; omega) (by omega) (le_refl 1)
      (fun i h1 h2 h3 => hag i h1 (by omega) h3) (by omega) (by omega)
    refine ⟨⟨some a, e.n, st1⟩, ?_, ⟨rfl, hna1, Or.inr ⟨hn1, h4, ?_, g1⟩⟩, hl1, k1⟩
    · simp only [update, hne, hout, if_false, hhi, hu, Option.bind_eq_bind, Option.some_bind]
    · show ((st1.length : Nat) : Int) = 4 * e.n
      rw [hl1]
      exact hl4

theorem step_built {e : rmq_segment_tree} {a : List Nat} (hb : Built e a) (k v : Nat) :
    ∃ e1, step e (k, v) = some e1 ∧ Built e1 (a.set k v) := by
  have hw : write e k v = ⟨some (a.set k v), e.n, e.st⟩ := by
    simp [write, hb.1]
  have hidx : (k : Int) ≤ INT_MAX → static_cast_int k = k := static_cast_int_of_le
  have hn4 : e.n = 0 ∨ 4 * e.n ≤ INT_MAX := by
    rcases hb.2.2 with h | h
    · exact Or.inl h
    · exact Or.inr h.2.1
  unfold INT_MAX at hidx hn4
  have hs : step e (k, v) = update ⟨some (a.set k v), e.n, e.st⟩ (static_cast_int k) := by
    unfold step
    rw [hw]
  rw [hs]
  generalize static_cast_int k = idx at *
  obtain ⟨e1, hu, hb1, _, _⟩ := update_built hb (List.length_set a k v) idx
    fun i h1 h2 h3 => val_set_ne a k v i (by
      intro hik
      have := hidx (by omega)
      omega)
  exact ⟨e1, hu, hb1⟩

theorem run_built (steps : List (Nat × Nat)) :
    ∀ {e : rmq_segment_tree} {a : List Nat}, Built e a →
      ∃ e1, run e steps = some e1 ∧ Built e1 (mutate a steps) := by
  induction steps with
  | nil => intro e a hb; exact ⟨e, rfl, hb⟩
  | cons kv ks ih =>
    intro e a hb
    obtain ⟨e1, hs, hb1⟩ := step_built hb kv.1 kv.2
    obtain ⟨e2, hr, hb2⟩ := ih hb1
    exact ⟨e2, by simp only [run, hs, Option.some_bind, hr], hb2⟩

theorem mutate_length (steps : List (Nat × Nat)) :
    ∀ a : List Nat, (mutate a steps).length = a.length := by
  induction steps with
  | nil => intro a; rfl
  | cons kv ks ih => intro a; simp [mutate, ih]

theorem build_some (e : rmq_segment_tree) (a : List Nat) (hn1 : 1 ≤ static_cast_int a.length)
    (hn2 : 4 * static_cast_int a.length ≤ INT_MAX) :
    ∃ e1, build e a = some e1 ∧ Built e1 a ∧ e1.n = static_cast_int a.length := by
  obtain ⟨st1, hb, _, _⟩ := build_ok e a hn1 hn2
  exact ⟨_, hb, build_built hb, rfl⟩

theorem build_some_small (e : rmq_segment_tree) (a : List Nat) (hn1 : 1 ≤ a.length)
    (hn2 : a.length < 536870912) :
    ∃ e1, build e a = some e1 ∧ Built e1 a ∧ e1.n = a.length := by
  have hc : static_cast_int a.length = a.length :=
    static_cast_int_of_le (by unfold INT_MAX; omega)
  obtain ⟨e1, hb, hbuilt, hn⟩ := build_some e a (by rw [hc]; omega)
    (by rw [hc]; unfold INT_MAX; omega)
  exact ⟨e1, hb, hbuilt, by rw [hn, hc]⟩

theorem built_query_lmin {e1 : rmq_segment_tree} {a : List Nat} (hb : Built e1 a)
    (l r : Int) (hl : 0 ≤ l) (hlr : l ≤ r) (hr : r < e1.n) :
    ∃ i, query e1 l r = some i ∧ LMin a l r i := by
  obtain ⟨i, hq, lm⟩ := (query_spec hb (by omega) l r).2 (by omega)
  have hmax : max l 0 = l := by omega
  have hmin : min r (e1.n - 1) = r := by omega
  rw [hmax, hmin] at lm
  exact ⟨i, hq, lm⟩

/-! # The claims -/

/-- C1, amended: for an array of length `n` with `1 ≤ n < 2^29` and bounds
`0 ≤ l ≤ r < n`, `build` succeeds and `query(l, r)` returns a position `i` of
`[l, r]` whose value is at most every value of `[l, r]`, and `i` is the smallest
position of `[l, r]` holding that value. -/
theorem query_leftmost_min (e : rmq_segment_tree) (a : List Nat) (l r : Int)
    (hn1 : 1 ≤ a.length) (hn2 : a.length < 536870912) (hl : 0 ≤ l) (hlr : l ≤ r)
    (hr : r < a.length) :
    ∃ e1 i, build e a = some e1 ∧ query e1 l r = some i ∧ l ≤ i ∧ i ≤ r ∧
      (∀ j, l ≤ j → j ≤ r → val a i ≤ val a j) ∧
      (∀ j, l ≤ j → j ≤ r → val a j = val a i → i ≤ j) := by
  obtain ⟨e1, hb, hbuilt, hn⟩ := build_some_small e a hn1 hn2
  obtain ⟨i, hq, h1, h2, h3⟩ := built_query_lmin hbuilt l r hl hlr (by rw [hn]; exact hr)
  refine ⟨e1, i, hb, hq, h1, h2, fun j hj1 hj2 => ?_, fun j hj1 hj2 hv => ?_⟩
  · have := h3 j hj1 hj2
    omega
  · have := h3 j hj1 hj2
    omega

/-- Instance of `query_leftmost_min`: the range `[2, 5]` of a ten-element array. -/
theorem query_leftmost_min_witness :
    ∃ e1 i, build ctor [6, 7, 3, 2, 4, 2, 1, 5, 8, 2] = some e1 ∧ query e1 2 5 = some i ∧
      2 ≤ i ∧ i ≤ 5 ∧
      (∀ j, 2 ≤ j → j ≤ 5 →
        val [6, 7, 3, 2, 4, 2, 1, 5, 8, 2] i ≤ val [6, 7, 3, 2, 4, 2, 1, 5, 8, 2] j) ∧
      (∀ j, 2 ≤ j → j ≤ 5 →
        val [6, 7, 3, 2, 4, 2, 1, 5, 8, 2] j = val [6, 7, 3, 2, 4, 2, 1, 5, 8, 2] i → i ≤ j) :=
  query_leftmost_min ctor [6, 7, 3, 2, 4, 2, 1, 5, 8, 2] 2 5 (by decide) (by decide) (by decide)
    (by decide) (by decide)

/-- C1 as stated fails on an array of `2^32` elements: its length narrows to
`n = 0`, `build` leaves an empty engine, and `query(0, 0)` returns `-1`, which is
no position of `[0, 0]`. -/
theorem query_length_narrowed_to_zero :
    (1 : Int) ≤ (List.replicate 4294967296 0).length ∧
    (0 : Int) < (List.replicate 4294967296 0).length ∧
    ∃ e1, build ctor (List.replicate 4294967296 0) = some e1 ∧ query e1 0 0 = some (-1) ∧
      ¬ ∃ i, query e1 0 0 = some i ∧ 0 ≤ i ∧ i ≤ 0 := by
  have hlen : (List.replicate 4294967296 (0 : Nat)).length = 4294967296 :=
    List.length_replicate _ _
  have hz : static_cast_int (List.replicate 4294967296 (0 : Nat)).length = 0 := by
    rw [hlen]
    unfold static_cast_int
    norm_num
  generalize List.replicate 4294967296 (0 : Nat) = a at *
  have hq : query ⟨some a, 0, []⟩ 0 0 = some (-1) := query_empty (Or.inr rfl) 0 0
  refine ⟨by rw [hlen]; norm_num, by rw [hlen]; norm_num, _, build_zero ctor a hz, hq, ?_⟩
  rintro ⟨i, hi, h0, _⟩
  rw [hq] at hi
  have : (-1 : Int) = i := by simpa using hi
  omega

/-- C2: starting from an engine built over `a`, after any sequence of steps
"store `A[k] = v` with `k < n`, then `update(k)`", every `query(l, r)` returns what
it returns on an engine freshly built over the mutated array. -/
theorem update_matches_rebuild (e e0 : rmq_segment_tree) (a : List Nat)
    (steps : List (Nat × Nat)) (_hn : 1 ≤ a.length) (hb : build e a = some e0)
    (_hk : ∀ kv ∈ steps, kv.1 < a.length) :
    ∃ e1 e2, run e0 steps = some e1 ∧ build e (mutate a steps) = some e2 ∧
      ∀ l r, query e1 l r = query e2 l r := by
  obtain ⟨e1, hr, hb1⟩ := run_built steps (build_built hb)
  obtain ⟨e2, hb2⟩ := build_of_length_eq (mutate_length steps a) hb
  exact ⟨e1, e2, hr, hb2, fun l r => query_eq_of_built hb1 (build_built hb2) l r⟩

/-- Instance of `update_matches_rebuild`: two stores into a four-element array,
the second one undoing a minimum. -/
theorem update_matches_rebuild_witness :
    ∃ e1 e2, run ⟨some [5, 1, 4, 1], 4, [0, 1, 1, 3, 0, 1, 2, 3, 0, 0, 0, 0, 0, 0, 0, 0]⟩
        [(1, 9), (3, 0)] = some e1 ∧
      build ctor (mutate [5, 1, 4, 1] [(1, 9), (3, 0)]) = some e2 ∧
      ∀ l r, query e1 l r = query e2 l r :=
  update_matches_rebuild ctor ⟨some [5, 1, 4, 1], 4, [0, 1, 1, 3, 0, 1, 2, 3, 0, 0, 0, 0, 0, 0, 0, 0]⟩
    [5, 1, 4, 1] [(1, 9), (3, 0)] (by decide) (by decide) (by decide)

/-- C3: on `A = [6,7,3,2,4,2,1,5,8,2]` the engine answers `query(0,9) = 6`,
`query(2,5) = 3` and `query(1,5) = 3`, and after the store `A[3] = 0` and
`update(3)` it answers `query(2,5) = 3`. -/
theorem scenario_ten_elements :
    ((ctor_of [6, 7, 3, 2, 4, 2, 1, 5, 8, 2]).bind fun e => query e 0 9) = some 6 ∧
    ((ctor_of [6, 7, 3, 2, 4, 2, 1, 5, 8, 2]).bind fun e => query e 2 5) = some 3 ∧
    ((ctor_of [6, 7, 3, 2, 4, 2, 1, 5, 8, 2]).bind fun e => query e 1 5) = some 3 ∧
    ((ctor_of [6, 7, 3, 2, 4, 2, 1, 5, 8, 2]).bind fun e =>
      (update (write e 3 0) 3).bind fun e1 => query e1 2 5) = some 3 := by
  decide

/-- C5: `query` returns `-1` on the default-constructed engine and on an engine
built over the empty array, whatever the bounds; on any engine with `n ≥ 1` it
returns `-1` when `max(l, 0) > min(r, n - 1)`; and on an engine with `n ≥ 1` that
was built and then updated any number of times, every other call returns a
position between the clamped bounds, hence neither `-1` nor an undefined run. -/
theorem query_no_result :
    (∀ l r, query ctor l r = some (-1)) ∧
    (∀ e l r, ∃ e1, build e [] = some e1 ∧ query e1 l r = some (-1)) ∧
    (∀ e l r, 1 ≤ e.n → e.n ≤ INT_MAX → min r (e.n - 1) < max l 0 → query e l r = some (-1)) ∧
    (∀ e0 a steps e1 e l r, build e0 a = some e1 → (∀ kv ∈ steps, kv.1 < a.length) →
      run e1 steps = some e → 1 ≤ e.n → max l 0 ≤ min r (e.n - 1) →
      ∃ i, query e l r = some i ∧ max l 0 ≤ i ∧ i ≤ min r (e.n - 1)) := by
  refine ⟨fun l r => rfl, fun e l r => ?_, fun e l r hn hmax hlt => ?_, ?_⟩
  · exact ⟨_, build_zero e [] (by decide), query_empty (Or.inr rfl) l r⟩
  · have hne : e.n ≠ 0 := by omega
    have hhi : int_op (e.n - 1) = some (e.n - 1) :=
      int_op_some (by unfold INT_MIN; omega) (by omega)
    unfold query
    cases e.A with
    | none => rfl
    | some a =>
      by_cases hc : r ≥ e.n
      · have hgt : (if l < 0 then 0 else l) > e.n - 1 := by
          split_ifs <;> omega
        simp only [hne, if_false, hc, if_true, hhi, Option.bind_eq_bind, Option.some_bind, hgt]
      · have hgt : (if l < 0 then 0 else l) > r := by
          split_ifs <;> omega
        simp only [hne, if_false, hc, Option.bind_eq_bind, Option.some_bind, hgt, if_true]
  · intro e0 a steps e1 e l r hb _ hr hn hle
    obtain ⟨e2, hr2, hb2⟩ := run_built steps (build_built hb)
    rw [hr] at hr2
    obtain rfl : e = e2 := by simpa using hr2
    obtain ⟨i, hq, h1, h2, _⟩ := (query_spec hb2 hn l r).2 hle
    exact ⟨i, hq, h1, h2⟩

/-- Instance of `query_no_result`: an empty clamped range and a non-empty one on
an engine over three elements. -/
theorem query_no_result_witness :
    query ⟨some [4, 2, 7], 3, [0, 1, 1, 2, 0, 1, 0, 0, 0, 0, 0, 0]⟩ 5 9 = some (-1) ∧
    ∃ i, query ⟨some [4, 2, 7], 3, [0, 1, 1, 2, 0, 1, 0, 0, 0, 0, 0, 0]⟩ (-2) 9 = some i ∧
      max (-2) 0 ≤ i ∧ i ≤ min 9 (3 - 1) :=
  ⟨query_no_result.2.2.1 ⟨some [4, 2, 7], 3, [0, 1, 1, 2, 0, 1, 0, 0, 0, 0, 0, 0]⟩ 5 9
      (by decide) (by decide) (by decide),
    query_no_result.2.2.2 ctor [4, 2, 7] [] _ _ (-2) 9 (by decide : build ctor [4, 2, 7] = some
      ⟨some [4, 2, 7], 3, [0, 1, 1, 2, 0, 1, 0, 0, 0, 0, 0, 0]⟩) (by decide) rfl (by decide)
      (by decide)⟩

/-- C8, amended: for an array of length `n` with `1 ≤ n < 2^29`, whatever its
values, and every `l` with `0 ≤ l < n`, `build` succeeds and `query(l, l)`
returns `l`. -/
theorem query_single (e : rmq_segment_tree) (a : List Nat) (l : Int) (hn1 : 1 ≤ a.length)
    (hn2 : a.length < 536870912) (hl : 0 ≤ l) (hr : l < a.length) :
    ∃ e1, build e a = some e1 ∧ query e1 l l = some l := by
  obtain ⟨e1, hb, hbuilt, hn⟩ := build_some_small e a hn1 hn2
  obtain ⟨i, hq, h1, h2, _⟩ := built_query_lmin hbuilt l l hl (le_refl l) (by rw [hn]; exact hr)
  have : i = l := by omega
  subst this
  exact ⟨e1, hb, hq⟩

/-- Instance of `query_single`: position 1 of a three-element array. -/
theorem query_single_witness :
    ∃ e1, build ctor [4, 2, 7] = some e1 ∧ query e1 1 1 = some 1 :=
  query_single ctor [4, 2, 7] 1 (by decide) (by decide) (by decide) (by decide)

/-- C8 as stated fails on an array of `2^32 + 1` elements: its length narrows
to `n = 1`, so the engine covers position `0` only and `query(1, 1)` returns
`-1`, not `1`. -/
theorem single_query_beyond_narrowed_length :
    (1 : Int) ≤ (List.replicate 4294967297 7).length ∧
    (1 : Int) < (List.replicate 4294967297 7).length ∧
    ∃ e1, build ctor (List.replicate 4294967297 7) = some e1 ∧ query e1 1 1 = some (-1) ∧
      query e1 1 1 ≠ some 1 := by
  have hlen : (List.replicate 4294967297 (7 : Nat)).length = 4294967297 :=
    List.length_replicate _ _
  have hc : static_cast_int (List.replicate 4294967297 (7 : Nat)).length = 1 := by
    rw [hlen]
    unfold static_cast_int
    norm_num
  generalize List.replicate 4294967297 (7 : Nat) = a at *
  obtain ⟨e1, hb, hbuilt, hn⟩ := build_some ctor a (by rw [hc]) (by rw [hc]; decide)
  rw [hc] at hn
  have hq := (query_spec hbuilt (by rw [hn]) 1 1).1 (by rw [hn]; decide)
  refine ⟨by rw [hlen]; norm_num, by rw [hlen]; norm_num, e1, hb, hq, ?_⟩
  rw [hq]
  decide

/-- C9: calling `build(a)` again on an engine already built over the same array
`a` succeeds and gives an engine that answers every `query(l, r)` as the first
one does. -/
theorem build_idempotent (e e1 : rmq_segment_tree) (a : List Nat) (h : build e a = some e1) :
    ∃ e2, build e1 a = some e2 ∧ ∀ l r, query e2 l r = query e1 l r :=
  ⟨e1, by rw [build_indep e1 e a]; exact h, fun _ _ => rfl⟩

/-- Instance of `build_idempotent` on a three-element array. -/
theorem build_idempotent_witness :
    ∃ e2, build ⟨some [4, 2, 7], 3, [0, 1, 1, 2, 0, 1, 0, 0, 0, 0, 0, 0]⟩ [4, 2, 7] = some e2 ∧
      ∀ l r, query e2 l r = query ⟨some [4, 2, 7], 3, [0, 1, 1, 2, 0, 1, 0, 0, 0, 0, 0, 0]⟩ l r :=
  build_idempotent ctor ⟨some [4, 2, 7], 3, [0, 1, 1, 2, 0, 1, 0, 0, 0, 0, 0, 0]⟩ [4, 2, 7]
    (by decide)

/-! ## Nodes of the tree -/

theorem Good.at_node {A : List Nat} {st : List Int} {p0 l0 r0 p l r : Int}
    (hn : Node p0 l0 r0 p l r) : Good A st p0 l0 r0 → Good A st p l r := by
  induction hn with
  | root => exact id
  | left _ hlt ih =>
    intro hg
    cases ih hg with
    | leaf _ => omega
    | node _ gl _ _ _ _ _ => exact gl
  | right _ hlt ih =>
    intro hg
    cases ih hg with
    | leaf _ => omega
    | node _ _ gr _ _ _ _ => exact gr

theorem Good.local {A : List Nat} {st : List Int} {p l r : Int} (hg : Good A st p l r) :
    (l = r → vec_get st p = some l) ∧
    (l < r → ∃ x y c, vec_get st (p * 2) = some x ∧ vec_get st (p * 2 + 1) = some y ∧
      combine A x y = some c ∧ vec_get st p = some c) := by
  cases hg with
  | leaf hv => exact ⟨fun _ => hv, fun h => absurd h (lt_irrefl _)⟩
  | node hlt _ _ ha hb hc hv =>
    exact ⟨fun h => absurd hlt (by omega), fun _ => ⟨_, _, _, ha, hb, hc, hv⟩⟩

theorem reach_built {e0 e1 e : rmq_segment_tree} {a : List Nat} {steps : List (Nat × Nat)}
    (hb : build e0 a = some e1) (hr : run e1 steps = some e) : Built e (mutate a steps) := by
  obtain ⟨e2, hr2, hb2⟩ := run_built steps (build_built hb)
  rw [hr] at hr2
  obtain rfl : e = e2 := by simpa using hr2
  exact hb2

theorem Built.n_eq {e : rmq_segment_tree} {a : List Nat} (hb : Built e a)
    (hn : a.length < 536870912) : e.n = a.length := by
  rw [hb.2.1]
  exact static_cast_int_of_le (by unfold INT_MAX; omega)

theorem Built.good {e : rmq_segment_tree} {a : List Nat} (hb : Built e a) (hn : 1 ≤ e.n) :
    4 * e.n ≤ INT_MAX ∧ (e.st.length : Int) = 4 * e.n ∧ Good a e.st 1 0 (e.n - 1) := by
  rcases hb.2.2 with h | h
  · omega
  · exact h.2

/-- C11, amended: for an array of length `n` with `1 ≤ n < 2^29`, `build`
succeeds, every sequence of steps "store `A[k] = v` with `k < n`, then
`update(k)`" succeeds, and in the engine reached every node `(p, l, r)` of the
tree over `[0, n - 1]` stores `l` when it is a leaf (`l = r`) and
`combine(st[2p], st[2p+1])`, computed on the current array, when it is an inner
node (`l < r`). -/
theorem tree_invariant (e0 : rmq_segment_tree) (a : List Nat) (steps : List (Nat × Nat))
    (hn1 : 1 ≤ a.length) (hn2 : a.length < 536870912)
    (_hk : ∀ kv ∈ steps, kv.1 < a.length) :
    ∃ e1 e, build e0 a = some e1 ∧ run e1 steps = some e ∧ e.A = some (mutate a steps) ∧
      ∀ p l r, Node 1 0 ((a.length : Int) - 1) p l r →
        (l = r → vec_get e.st p = some l) ∧
        (l < r → ∃ x y c, vec_get e.st (p * 2) = some x ∧ vec_get e.st (p * 2 + 1) = some y ∧
          combine (mutate a steps) x y = some c ∧ vec_get e.st p = some c) := by
  obtain ⟨e1, hb, hbuilt, _⟩ := build_some_small e0 a hn1 hn2
  obtain ⟨e, hr, hb2⟩ := run_built steps hbuilt
  have hlen := mutate_length steps a
  have hn : e.n = a.length := by
    rw [hb2.n_eq (by rw [hlen]; exact hn2), hlen]
  have hg := (hb2.good (by rw [hn]; omega)).2.2
  rw [hn] at hg
  exact ⟨e1, e, hb, hr, hb2.1, fun p l r hnode => (hg.at_node hnode).local⟩

/-- Instance of `tree_invariant`: a four-element array after one store. -/
theorem tree_invariant_witness :
    ∃ e1 e, build ctor [5, 1, 4, 1] = some e1 ∧ run e1 [(1, 9)] = some e ∧
      e.A = some (mutate [5, 1, 4, 1] [(1, 9)]) ∧
      ∀ p l r, Node 1 0 ((([5, 1, 4, 1] : List Nat).length : Int) - 1) p l r →
        (l = r → vec_get e.st p = some l) ∧
        (l < r → ∃ x y c, vec_get e.st (p * 2) = some x ∧ vec_get e.st (p * 2 + 1) = some y ∧
          combine (mutate [5, 1, 4, 1] [(1, 9)]) x y = some c ∧ vec_get e.st p = some c) :=
  tree_invariant ctor [5, 1, 4, 1] [(1, 9)] (by decide) (by decide) (by decide)

/-- C11 as stated fails on an array of `2^32` elements: its length narrows to
`n = 0`, `build` leaves an empty tree array, and the root node of the tree over
`[0, 2^32 - 1]`, an inner node, has no entry `st[1]`. -/
theorem tree_invariant_length_narrowed_to_zero :
    (1 : Int) ≤ (List.replicate 4294967296 3).length ∧
    ∃ e1, build ctor (List.replicate 4294967296 3) = some e1 ∧
      Node 1 0 (((List.replicate 4294967296 3).length : Int) - 1) 1 0
        (((List.replicate 4294967296 3).length : Int) - 1) ∧
      (0 : Int) < ((List.replicate 4294967296 3).length : Int) - 1 ∧
      vec_get e1.st 1 = none := by
  have hlen : (List.replicate 4294967296 (3 : Nat)).length = 4294967296 :=
    List.length_replicate _ _
  have hz : static_cast_int (List.replicate 4294967296 (3 : Nat)).length = 0 := by
    rw [hlen]
    unfold static_cast_int
    norm_num
  generalize List.replicate 4294967296 (3 : Nat) = a at *
  exact ⟨by rw [hlen]; norm_num, _, build_zero ctor a hz, Node.root, by rw [hlen]; norm_num, rfl⟩

/-- C12: on an engine that was built and updated, after a store `A[idx] = v`
with `0 ≤ idx < n` the call `update(idx)` succeeds, keeps the size of `st`, and
leaves unchanged every entry of `st` that is not a node of the tree over
`[0, n - 1]` whose range contains `idx`. -/
theorem update_frame (e0 e1 e : rmq_segment_tree) (a : List Nat) (steps : List (Nat × Nat))
    (idx : Int) (v : Nat) (hb : build e0 a = some e1) (_hk : ∀ kv ∈ steps, kv.1 < a.length)
    (hr : run e1 steps = some e) (_h0 : 0 ≤ idx) (_hn : idx < e.n) :
    ∃ e2, update (write e idx.toNat v) idx = some e2 ∧ e2.st.length = e.st.length ∧
      ∀ q, ¬ OnPath 1 0 (e.n - 1) idx q → vec_get e2.st q = vec_get e.st q := by
  have hbuilt := reach_built hb hr
  have hw : write e idx.toNat v = ⟨some ((mutate a steps).set idx.toNat v), e.n, e.st⟩ := by
    simp [write, hbuilt.1]
  rw [hw]
  obtain ⟨e2, hu, _, hl, hf⟩ := update_built hbuilt
    (List.length_set (mutate a steps) idx.toNat v) idx
    fun i h1 _ h3 => val_set_ne (mutate a steps) idx.toNat v i (by omega)
  exact ⟨e2, hu, hl, hf⟩

/-- Instance of `update_frame`: position 3 of a four-element array. -/
theorem update_frame_witness :
    ∃ e2, update (write ⟨some [5, 1, 4, 1], 4, [0, 1, 1, 3, 0, 1, 2, 3, 0, 0, 0, 0, 0, 0, 0, 0]⟩
        (3 : Int).toNat 0) 3 = some e2 ∧
      e2.st.length = (⟨some [5, 1, 4, 1], 4,
        [0, 1, 1, 3, 0, 1, 2, 3, 0, 0, 0, 0, 0, 0, 0, 0]⟩ : rmq_segment_tree).st.length ∧
      ∀ q, ¬ OnPath 1 0 ((⟨some [5, 1, 4, 1], 4,
          [0, 1, 1, 3, 0, 1, 2, 3, 0, 0, 0, 0, 0, 0, 0, 0]⟩ : rmq_segment_tree).n - 1) 3 q →
        vec_get e2.st q = vec_get (⟨some [5, 1, 4, 1], 4,
          [0, 1, 1, 3, 0, 1, 2, 3, 0, 0, 0, 0, 0, 0, 0, 0]⟩ : rmq_segment_tree).st q :=
  update_frame ctor _ ⟨some [5, 1, 4, 1], 4, [0, 1, 1, 3, 0, 1, 2, 3, 0, 0, 0, 0, 0, 0, 0, 0]⟩
    [5, 1, 4, 1] [] 3 0 (by decide : build ctor [5, 1, 4, 1] = some
      ⟨some [5, 1, 4, 1], 4, [0, 1, 1, 3, 0, 1, 2, 3, 0, 0, 0, 0, 0, 0, 0, 0]⟩) (by decide) rfl
    (by decide) (by decide)

/-! ## Subscripts into the tree array -/

theorem Node.bound_aux {n p l r : Int} (hn : 1 ≤ n) (h : Node 1 0 (n - 1) p l r) :
    ∃ w, 1 ≤ w ∧ p < 2 * w ∧ (r - l) * w < n ∧ 1 ≤ p ∧ p < 4 * n ∧ 0 ≤ l ∧ l ≤ r ∧ r < n := by
  induction h with
  | root => exact ⟨1, le_refl 1, by omega, by omega, le_refl 1, by omega, le_refl 0, by omega,
      by omega⟩
  | @left p l r _ hlt ih =>
    obtain ⟨w, hw1, hpw, hw, hp1, _, h0, _, hrn⟩ := ih
    have hw0 : 0 ≤ w := by omega
    have hwn : w < n := width_le hw0 (by omega) hw
    exact ⟨2 * w, by omega, by omega, width_step hw0 (by omega) hw, by omega, by omega, h0,
      by omega, by omega⟩
  | @right p l r _ hlt ih =>
    obtain ⟨w, hw1, hpw, hw, hp1, _, h0, _, hrn⟩ := ih
    have hw0 : 0 ≤ w := by omega
    have hwn : w < n := width_le hw0 (by omega) hw
    exact ⟨2 * w, by omega, by omega, width_step hw0 (by omega) hw, by omega, by omega,
      by omega, by omega, hrn⟩

theorem Node.bound {n p l r : Int} (hn : 1 ≤ n) (h : Node 1 0 (n - 1) p l r) :
    1 ≤ p ∧ p < 4 * n := by
  obtain ⟨_, _, _, _, h1, h2, _⟩ := Node.bound_aux hn h
  exact ⟨h1, h2⟩

theorem build_rec_idx_node :
    ∀ (fuel : Nat) (p l r q : Int), 0 ≤ l → l ≤ r → q ∈ build_rec_idx fuel p l r →
      ∃ ql qr, Node p l r q ql qr := by
  intro fuel
  induction fuel with
  | zero => intro p l r q _ _ h; simp [build_rec_idx] at h
  | succ fuel ih =>
    intro p l r q h0 hlr h
    by_cases heq : l = r
    · simp only [build_rec_idx, heq, if_true, List.mem_singleton] at h
      subst h
      exact ⟨l, r, Node.root⟩
    · have hlt : l < r := by omega
      have hmid : Int.tdiv (l + r) 2 = (l + r) / 2 := tdiv_two (by omega)
      simp only [build_rec_idx, heq, if_false, hmid, List.mem_append, List.mem_cons,
        List.mem_singleton, List.not_mem_nil, or_false, or_self] at h
      rcases h with (h | h) | h
      · obtain ⟨ql, qr, hn⟩ := ih _ _ _ q h0 (by omega) h
        exact ⟨ql, qr, Node.of_left hlt hn⟩
      · obtain ⟨ql, qr, hn⟩ := ih _ _ _ q (by omega) (by omega) h
        exact ⟨ql, qr, Node.of_right hlt hn⟩
      · subst h
        exact ⟨l, r, Node.root⟩

theorem query_rec_idx_node :
    ∀ (fuel : Nat) (p l r ql qr q : Int), 0 ≤ l → l ≤ r → q ∈ query_rec_idx fuel p l r ql qr →
      ∃ l1 r1, Node p l r q l1 r1 := by
  intro fuel
  induction fuel with
  | zero => intro p l r ql qr q _ _ h; simp [query_rec_idx] at h
  | succ fuel ih =>
    intro p l r ql qr q h0 hlr h
    by_cases hout : qr < l ∨ r < ql
    · simp [query_rec_idx, hout] at h
    by_cases hin : ql ≤ l ∧ r ≤ qr
    · simp only [query_rec_idx, gt_iff_lt, hout, hin, if_false, if_true, and_self,
        List.mem_singleton] at h
      subst h
      exact ⟨l, r, Node.root⟩
    · have hlt : l < r := by omega
      have hmid : Int.tdiv (l + r) 2 = (l + r) / 2 := tdiv_two (by omega)
      simp only [query_rec_idx, gt_iff_lt, hout, hin, if_false, hmid, List.mem_append] at h
      rcases h with h | h
      · obtain ⟨l1, r1, hn⟩ := ih _ _ _ ql qr q h0 (by omega) h
        exact ⟨l1, r1, Node.of_left hlt hn⟩
      · obtain ⟨l1, r1, hn⟩ := ih _ _ _ ql qr q (by omega) (by omega) h
        exact ⟨l1, r1, Node.of_right hlt hn⟩

theorem update_rec_idx_node :
    ∀ (fuel : Nat) (p l r idx q : Int), 0 ≤ l → l ≤ r → q ∈ update_rec_idx fuel p l r idx →
      ∃ l1 r1, Node p l r q l1 r1 := by
  intro fuel
  induction fuel with
  | zero => intro p l r idx q _ _ h; simp [update_rec_idx] at h
  | succ fuel ih =>
    intro p l r idx q h0 hlr h
    by_cases heq : l = r
    · simp only [update_rec_idx, heq, if_true, List.mem_singleton] at h
      subst h
      exact ⟨l, r, Node.root⟩
    · have hlt : l < r := by omega
      have hmid : Int.tdiv (l + r) 2 = (l + r) / 2 := tdiv_two (by omega)
      simp only [update_rec_idx, heq, if_false, hmid, List.mem_append, List.mem_cons,
        List.mem_singleton, List.not_mem_nil, or_false] at h
      rcases h with h | h | h | h
      · by_cases hi : idx ≤ (l + r) / 2
        · rw [if_pos hi] at h
          obtain ⟨l1, r1, hn⟩ := ih _ _ _ idx q h0 (by omega) h
          exact ⟨l1, r1, Node.of_left hlt hn⟩
        · rw [if_neg hi] at h
          obtain ⟨l1, r1, hn⟩ := ih _ _ _ idx q (by omega) (by omega) h
          exact ⟨l1, r1, Node.of_right hlt hn⟩
      · subst h
        exact ⟨_, _, Node.left Node.root hlt⟩
      · subst h
        exact ⟨_, _, Node.right Node.root hlt⟩
      · subst h
        exact ⟨l, r, Node.root⟩

/-- C13, amended: for an array of length `n` with `1 ≤ n < 2^29`, every
subscript `p` at which `build_rec`, `query_rec` or `update_rec`, started at
`(p = 1, l = 0, r = n - 1)`, reads or writes `st` satisfies `1 ≤ p < 4n`; `build`
succeeds and leaves a tree array of exactly `4n` entries, on which `query_rec`
and `update_rec` run to a result, so that no access leaves the array and no
`int` expression overflows. -/
theorem st_access_in_bounds (e : rmq_segment_tree) (a : List Nat) (hn1 : 1 ≤ a.length)
    (hn2 : a.length < 536870912) :
    (∀ q ∈ build_rec_idx a.length 1 0 ((a.length : Int) - 1), 1 ≤ q ∧ q < 4 * (a.length : Int)) ∧
    (∀ ql qr, ∀ q ∈ query_rec_idx a.length 1 0 ((a.length : Int) - 1) ql qr,
      1 ≤ q ∧ q < 4 * (a.length : Int)) ∧
    (∀ idx, ∀ q ∈ update_rec_idx a.length 1 0 ((a.length : Int) - 1) idx,
      1 ≤ q ∧ q < 4 * (a.length : Int)) ∧
    ∃ e1, build e a = some e1 ∧ (e1.st.length : Int) = 4 * (a.length : Int) ∧
      (∀ ql qr, ql ≤ qr →
        ∃ v, query_rec a e1.st a.length 1 0 ((a.length : Int) - 1) ql qr = some v) ∧
      (∀ idx, 0 ≤ idx → idx < (a.length : Int) →
        ∃ st1, update_rec a a.length e1.st 1 0 ((a.length : Int) - 1) idx = some st1 ∧
          st1.length = e1.st.length) := by
  have hn : (1 : Int) ≤ (a.length : Int) := by omega
  refine ⟨fun q hq => ?_, fun ql qr q hq => ?_, fun idx q hq => ?_, ?_⟩
  · obtain ⟨l1, r1, h⟩ := build_rec_idx_node _ _ _ _ q (le_refl 0) (by omega) hq
    exact Node.bound hn h
  · obtain ⟨l1, r1, h⟩ := query_rec_idx_node _ _ _ _ ql qr q (le_refl 0) (by omega) hq
    exact Node.bound hn h
  · obtain ⟨l1, r1, h⟩ := update_rec_idx_node _ _ _ _ idx q (le_refl 0) (by omega) hq
    exact Node.bound hn h
  · obtain ⟨e1, hb, hbuilt, hen⟩ := build_some_small e a hn1 hn2
    obtain ⟨h4, hlen, hg⟩ := hbuilt.good (by rw [hen]; omega)
    rw [hen] at h4 hlen hg
    have h4a : 4 * (a.length : Int) ≤ 2147483647 := h4
    refine ⟨e1, hb, hlen, fun ql qr hq => ?_, fun idx h0 h1 => ?_⟩
    · obtain ⟨v, hv, _⟩ := query_rec_spec a e1.st (by unfold INT_MAX; omega) a.length 1 0
        ((a.length : Int) - 1) ql qr hg (le_refl 0) (by omega) (by omega)
        (by unfold INT_MAX; omega) (by omega) hq
      exact ⟨v, hv⟩
    · obtain ⟨st1, hu, hl1, _⟩ := update_rec_spec a a rfl a.length e1.st 1 0
        ((a.length : Int) - 1) idx hg (le_refl 0) (by omega) (by omega)
        (by unfold INT_MAX; omega) (by unfold INT_MAX; omega) (by omega) (le_refl 1)
        (fun _ _ _ _ => rfl) h0 (by omega)
      exact ⟨st1, hu, hl1⟩

/-- Instance of `st_access_in_bounds`: build over a three-element array and
the two recursions on its tree array. -/
theorem st_access_in_bounds_witness :
    ∃ e1, build ctor [4, 2, 7] = some e1 ∧
      (e1.st.length : Int) = 4 * (([4, 2, 7] : List Nat).length : Int) ∧
      (∀ ql qr, ql ≤ qr →
        ∃ v, query_rec [4, 2, 7] e1.st ([4, 2, 7] : List Nat).length 1 0
          ((([4, 2, 7] : List Nat).length : Int) - 1) ql qr = some v) ∧
      (∀ idx, 0 ≤ idx → idx < (([4, 2, 7] : List Nat).length : Int) →
        ∃ st1, update_rec [4, 2, 7] ([4, 2, 7] : List Nat).length e1.st 1 0
          ((([4, 2, 7] : List Nat).length : Int) - 1) idx = some st1 ∧
          st1.length = e1.st.length) :=
  (st_access_in_bounds ctor [4, 2, 7] (by decide) (by decide)).2.2.2

theorem build_rec_overflow (A : List Nat) :
    ∀ (k fuel : Nat) (st : List Int) (p r : Int), 1 ≤ p → r = 2 ^ k → p * r = 1073741824 →
      build_rec A fuel st p 0 r = none := by
  intro k
  induction k with
  | zero =>
    intro fuel st p r hp hr hpr
    cases fuel with
    | zero => rfl
    | succ fuel =>
      have hr1 : r = 1 := by simpa using hr
      subst hr1
      have hne : ¬ (0 : Int) = 1 := by decide
      have hs : int_op (0 + 1) = some (0 + 1) := by decide
      have hpl : int_op (p * 2) = none := by
        have : ¬ (INT_MIN ≤ p * 2 ∧ p * 2 ≤ INT_MAX) := by
          unfold INT_MAX
          omega
        unfold int_op
        rw [if_neg this]
      simp only [build_rec, hne, if_false, hs, hpl, Option.bind_eq_bind, Option.some_bind,
        Option.none_bind]
  | succ k ih =>
    intro fuel st p r hp hr hpr
    cases fuel with
    | zero => rfl
    | succ fuel =>
      have hx1 : (1 : Int) ≤ 2 ^ k := one_le_pow₀ (by decide)
      have hr2 : r = 2 * 2 ^ k := by rw [hr, pow_succ]; ring
      generalize (2 : Int) ^ k = x at *
      subst hr2
      have hp0 : (0 : Int) ≤ p * 2 := by omega
      have hle : p * 2 ≤ p * 2 * x := le_mul_of_one_le_right hp0 hx1
      have hpx : p * 2 * x = 1073741824 := by linarith
      have hxle : 2 * x ≤ 1073741824 := by
        have := mul_le_mul_of_nonneg_right hp (by omega : (0 : Int) ≤ 2 * x)
        linarith
      have hne : ¬ (0 : Int) = 2 * x := by omega
      have hs : int_op (0 + 2 * x) = some (0 + 2 * x) :=
        int_op_some (by unfold INT_MIN; omega) (by unfold INT_MAX; omega)
      have hmid : Int.tdiv (0 + 2 * x) 2 = x := by
        rw [tdiv_two (by omega)]
        omega
      have hpl : int_op (p * 2) = some (p * 2) :=
        int_op_some (by unfold INT_MIN; omega) (by unfold INT_MAX; omega)
      have hrec := ih fuel st (p * 2) x (by omega) rfl hpx
      simp only [build_rec, hne, if_false, hs, hmid, hpl, hrec, Option.bind_eq_bind,
        Option.some_bind, Option.none_bind]

/-- C13 as stated fails for `n = 2^30 + 1`: `build` cannot size the tree array,
since `4 * n` is not an `int`; and `build_rec` started at `(1, 0, n - 1)`, even
on a vector of `4n` entries, reaches the node `p = 2^30` covering `[0, 1]`, whose
child subscript `p * 2 = 2^31` is not an `int` either, so the run has no defined
result. -/
theorem st_access_int_overflow :
    (1 : Int) ≤ (List.replicate 1073741825 (0 : Nat)).length ∧
    build ctor (List.replicate 1073741825 0) = none ∧
    build_rec (List.replicate 1073741825 0) 1073741825 (List.replicate 4294967300 0) 1 0
      (((List.replicate 1073741825 (0 : Nat)).length : Int) - 1) = none := by
  have hlen : (List.replicate 1073741825 (0 : Nat)).length = 1073741825 :=
    List.length_replicate _ _
  have hc : static_cast_int (List.replicate 1073741825 (0 : Nat)).length = 1073741825 := by
    rw [hlen]
    exact static_cast_int_of_le (by decide)
  generalize List.replicate 4294967300 (0 : Int) = st
  generalize List.replicate 1073741825 (0 : Nat) = a at *
  refine ⟨by rw [hlen]; norm_num, build_fail ctor a (Or.inr ?_), ?_⟩
  · rw [hc]
    decide
  · rw [hlen]
    exact build_rec_overflow a 30 1073741825 st 1 _ (le_refl 1) (by norm_num) (by norm_num)

/-- C14, amended: on an engine with `n ≥ 1`, for all sizes `l`, `r` such that
the narrowed right bound `static_cast<int>(r)` is at least `n`, which holds for
every `r` with `n ≤ r ≤ 2^31 - 1`, `operator()(l, r)` returns what
`operator()(l, n - 1)` returns. -/
theorem operator_call_clamp (e : rmq_segment_tree) (l r : Nat) (hn : 1 ≤ e.n)
    (hmax : e.n ≤ INT_MAX) :
    (e.n ≤ static_cast_int r → operator_call e l r = operator_call e l (e.n - 1).toNat) ∧
    (e.n ≤ (r : Int) → (r : Int) ≤ INT_MAX →
      operator_call e l r = operator_call e l (e.n - 1).toNat) := by
  have hc : static_cast_int (e.n - 1).toNat = e.n - 1 := by
    rw [static_cast_int_of_le (by unfold INT_MAX at *; omega)]
    omega
  have key : e.n ≤ static_cast_int r →
      operator_call e l r = operator_call e l (e.n - 1).toNat := by
    intro hr
    unfold operator_call
    rw [hc]
    generalize static_cast_int r = r1 at *
    generalize static_cast_int l = l1 at *
    exact query_clamp_right e l1 r1 hn hmax hr
  refine ⟨key, fun h1 h2 => key ?_⟩
  rw [static_cast_int_of_le h2]
  exact h1

/-- Instance of `operator_call_clamp`: right bound 7 on an engine over three
elements. -/
theorem operator_call_clamp_witness :
    operator_call ⟨some [4, 2, 7], 3, [0, 1, 1, 2, 0, 1, 0, 0, 0, 0, 0, 0]⟩ 0 7
      = operator_call ⟨some [4, 2, 7], 3, [0, 1, 1, 2, 0, 1, 0, 0, 0, 0, 0, 0]⟩ 0
        ((3 : Int) - 1).toNat :=
  (operator_call_clamp ⟨some [4, 2, 7], 3, [0, 1, 1, 2, 0, 1, 0, 0, 0, 0, 0, 0]⟩ 0 7
    (by decide) (by decide)).1 (by decide)

/-- C14 as stated fails for `r = 2^32 - 1` on the engine built over `[4, 2, 7]`:
`r ≥ n = 3`, but `r` narrows to `-1`, so `operator()(0, r)` returns `-1` while
`operator()(0, n - 1)` returns position `1`. -/
theorem operator_call_narrowed_right_bound :
    build ctor [4, 2, 7] = some ⟨some [4, 2, 7], 3, [0, 1, 1, 2, 0, 1, 0, 0, 0, 0, 0, 0]⟩ ∧
    (3 : Nat) ≤ 4294967295 ∧ (4294967295 : Nat) < 2 ^ 64 ∧
    static_cast_int 4294967295 = -1 ∧
    operator_call ⟨some [4, 2, 7], 3, [0, 1, 1, 2, 0, 1, 0, 0, 0, 0, 0, 0]⟩ 0 4294967295
      = some (-1) ∧
    operator_call ⟨some [4, 2, 7], 3, [0, 1, 1, 2, 0, 1, 0, 0, 0, 0, 0, 0]⟩ 0 (3 - 1)
      = some 1 := by
  decide

end rmq_segment_tree

/-! ## The static variant against the dynamic one -/

namespace static_variant

theorem combine_eq (A : List Nat) (i j : Int) :
    static_variant.combine A i j = rmq_segment_tree.combine A i j := rfl

theorem build_rec_eq (A : List Nat) :
    ∀ (fuel : Nat) (st : List Int) (p l r : Int),
      static_variant.build_rec A fuel st p l r = rmq_segment_tree.build_rec A fuel st p l r := by
  intro fuel
  induction fuel with
  | zero => intro st p l r; rfl
  | succ fuel ih =>
    intro st p l r
    simp only [static_variant.build_rec, rmq_segment_tree.build_rec, ih, combine_eq]

theorem query_rec_eq (A : List Nat) (st : List Int) :
    ∀ (fuel : Nat) (p l r ql qr : Int),
      static_variant.query_rec A st fuel p l r ql qr
        = rmq_segment_tree.query_rec A st fuel p l r ql qr := by
  intro fuel
  induction fuel with
  | zero => intro p l r ql qr; rfl
  | succ fuel ih =>
    intro p l r ql qr
    simp only [static_variant.query_rec, rmq_segment_tree.query_rec, ih, combine_eq, gt_iff_lt]

theorem build_eq (e : rmq_segment_tree) (a : List Nat) :
    static_variant.build e a = rmq_segment_tree.build e a := by
  have h : static_variant.build_rec a = rmq_segment_tree.build_rec a := by
    funext fuel st p l r
    exact build_rec_eq a fuel st p l r
  unfold static_variant.build rmq_segment_tree.build
  rw [h]

theorem query_eq (e : rmq_segment_tree) (l r : Int) :
    static_variant.query e l r = rmq_segment_tree.query e l r := by
  have h : static_variant.query_rec = rmq_segment_tree.query_rec := by
    funext A st fuel p l r ql qr
    exact query_rec_eq A st fuel p l r ql qr
  unfold static_variant.query rmq_segment_tree.query
  rw [h]

/-- C15: over every array the static and the dynamic engine are built alike, to
the same tree array `st`, or not at all, and they answer every `query(l, r)`
alike. -/
theorem static_dynamic_agree (e1 e2 : rmq_segment_tree) (a : List Nat) :
    static_variant.build e1 a = rmq_segment_tree.build e2 a ∧
    ∀ es ed, static_variant.build e1 a = some es → rmq_segment_tree.build e2 a = some ed →
      es.st = ed.st ∧ ∀ l r, static_variant.query es l r = rmq_segment_tree.query ed l r := by
  have hb : static_variant.build e1 a = rmq_segment_tree.build e2 a := by
    rw [build_eq, rmq_segment_tree.build_indep e1 e2 a]
  refine ⟨hb, fun es ed h1 h2 => ?_⟩
  rw [hb, h2] at h1
  obtain rfl : ed = es := by simpa using h1
  exact ⟨rfl, fun l r => query_eq ed l r⟩

/-- Instance of `static_dynamic_agree` on a three-element array. -/
theorem static_dynamic_agree_witness :
    (⟨some [4, 2, 7], 3, [0, 1, 1, 2, 0, 1, 0, 0, 0, 0, 0, 0]⟩ : rmq_segment_tree).st
      = (⟨some [4, 2, 7], 3, [0, 1, 1, 2, 0, 1, 0, 0, 0, 0, 0, 0]⟩ : rmq_segment_tree).st ∧
    ∀ l r, static_variant.query ⟨some [4, 2, 7], 3, [0, 1, 1, 2, 0, 1, 0, 0, 0, 0, 0, 0]⟩ l r
      = rmq_segment_tree.query ⟨some [4, 2, 7], 3, [0, 1, 1, 2, 0, 1, 0, 0, 0, 0, 0, 0]⟩ l r :=
  (static_dynamic_agree rmq_segment_tree.ctor rmq_segment_tree.ctor [4, 2, 7]).2 _ _
    (by decide) (by decide)

end static_variant

end rmq
